import Mathlib

/-!
Verification of the numerical training core of the cpp-ml-react repository:
the `LinearRegression` class (src/cpp/linear_regression.cpp) and the
`NeuralNetwork` class (neural_network.cpp, declared in src/cpp/neural_network.h).

Modelling conventions:
* C++ `double` arithmetic is modelled by exact rational arithmetic over `ℚ`;
  floating-point rounding is not modelled.  The literal threshold constants
  `1e-10` and `1e-6` are modelled by the exact rationals `1/10^10` and `1/10^6`.
* Code that throws `std::invalid_argument` is modelled by functions returning
  `Except Unit _`, with `.error ()` standing for the thrown exception.
* Division by zero in `ℚ` yields `0`; every place the code divides, the
  divisor is guarded non-zero on the paths the theorems talk about.
* The random shuffles (`std::shuffle`) are modelled by an explicit family of
  index orders `perm : ℕ → List ℕ` (one order per epoch); theorems quantify
  over them, with permutation-of-`range` hypotheses where the claims need them.
* The random weight initialisation draws are modelled by explicit draw
  functions passed to construction; the claims never depend on the drawn
  values, only on the shapes produced.
* The network's sigmoid `1/(1+exp(-x))` is not rational; the embedding is
  parametric in the activation `sig : ℚ → ℚ`, and `sigmoid_derivative` is
  defined from it exactly as the code defines it from `sigmoid`
  (`sig x * (1 - sig x)`).  Every theorem quantifies over `sig`, so each holds
  in particular for the real sigmoid.
-/

namespace LinReg

/-- Model of `LinearRegression::mean` (linear_regression.cpp:114-126): sum of the
entries divided by the length.  The C++ function throws on an empty vector; all
call sites modelled here guard non-emptiness first, so the model is total. -/
def mean (v : List ℚ) : ℚ := v.sum / v.length

/-- Pure value computed by `LinearRegression::mean_squared_error`
(linear_regression.cpp:136-143) once its guards have passed: the mean of
`(slope*x + intercept - y)^2` over the paired samples. -/
def msePure (slope intercept : ℚ) (X y : List ℚ) : ℚ :=
  (((X.zip y).map (fun p => (slope * p.1 + intercept - p.2) ^ 2)).sum) / X.length

/-- Model of `LinearRegression::mean_squared_error` (linear_regression.cpp:128-144):
throws on length mismatch, returns 0 on empty input, otherwise the mean squared
error at the current parameters. -/
def mean_squared_error (slope intercept : ℚ) (X y : List ℚ) : Except Unit ℚ :=
  if X.length ≠ y.length then .error ()
  else if X.length = 0 then .ok 0
  else .ok (msePure slope intercept X y)

/-- Model of `LinearRegression::get_mse` (linear_regression.cpp:146-148), which
just forwards to `mean_squared_error`. -/
def get_mse (slope intercept : ℚ) (X y : List ℚ) : Except Unit ℚ :=
  mean_squared_error slope intercept X y

/-- Model of `LinearRegression::get_r_squared` (linear_regression.cpp:150-169):
throws when the lengths mismatch or the inputs are empty, otherwise returns
`1 - RSS/TSS` with `RSS = MSE * n` and `TSS = Σ (y_i - ȳ)^2`. -/
def get_r_squared (slope intercept : ℚ) (X y : List ℚ) : Except Unit ℚ :=
  if X.length ≠ y.length ∨ X.length = 0 then .error ()
  else
    let y_mean := mean y
    let tss := (y.map (fun v => (v - y_mean) * (v - y_mean))).sum
    let rss := msePure slope intercept X y * X.length
    .ok (1 - rss / tss)

/-- Model of `LinearRegression::fit_analytical` (linear_regression.cpp:171-207):
throws on mismatched or empty inputs; otherwise computes the closed-form
least-squares slope with a `|denominator| < 1e-10` degeneracy guard, and the
intercept `ȳ - slope * x̄`.  Returns the `(slope, intercept)` pair the call
stores into the model. -/
def fit_analytical (X y : List ℚ) : Except Unit (ℚ × ℚ) :=
  if X.length ≠ y.length then .error ()
  else if X.length = 0 then .error ()
  else
    let mean_x := mean X
    let mean_y := mean y
    let numerator := ((X.zip y).map (fun p => (p.1 - mean_x) * (p.2 - mean_y))).sum
    let denominator := (X.map (fun x => (x - mean_x) * (x - mean_x))).sum
    let slope := if |denominator| < 1 / 10 ^ 10 then 0 else numerator / denominator
    .ok (slope, mean_y - slope * mean_x)

/-- Model of one mini-batch update of `LinearRegression::fit`
(linear_regression.cpp:62-78).  Over the batch (pairs of sample and target) it
accumulates `slope_gradient = Σ (pred - y) * x` and
`intercept_gradient = Σ (pred - y)` at the pre-update parameters `sb`, then
updates both parameters by `learning_rate * (gradient / batch_size)`. -/
def batchStep (lr : ℚ) (sb : ℚ × ℚ) (batch : List (ℚ × ℚ)) : ℚ × ℚ :=
  let slope_gradient := (batch.map (fun p => (sb.1 * p.1 + sb.2 - p.2) * p.1)).sum
  let intercept_gradient := (batch.map (fun p => sb.1 * p.1 + sb.2 - p.2)).sum
  (sb.1 - lr * (slope_gradient / batch.length),
   sb.2 - lr * (intercept_gradient / batch.length))

/-- Partition a list into contiguous chunks of size `bs` (the last chunk may be
shorter), mirroring the `batch_start += batch_size` loop of
`LinearRegression::fit` (linear_regression.cpp:51-52). -/
def chunks (bs : ℕ) (l : List α) : List (List α) :=
  match l with
  | [] => []
  | a :: t =>
    if _h : bs = 0 then []
    else (a :: t).take bs :: chunks bs ((a :: t).drop bs)
termination_by l.length
decreasing_by simp [List.length_drop]; omega

/-- Model of one epoch of `LinearRegression::fit` (linear_regression.cpp:46-80):
the shuffled index order `ord` is split into mini-batches; each batch gathers
its samples from `X`/`y` and performs one `batchStep`. -/
def runEpoch (lr : ℚ) (bs : ℕ) (X y : List ℚ) (ord : List ℕ) (sb : ℚ × ℚ) : ℚ × ℚ :=
  ((chunks bs ord).map (fun c => c.map (fun idx => (X.getD idx 0, y.getD idx 0)))).foldl
    (batchStep lr) sb

/-- Model of the early-stopping bookkeeping after one epoch of
`LinearRegression::fit` (linear_regression.cpp:82-96).  The C++ sentinel
`best_mse = infinity` (with its `!isfinite` escape) is modelled by
`none`; a finite best MSE is `some b`.  Returns the new best and the new
no-improvement counter. -/
def esStep (best : Option ℚ) (cnt : ℕ) (mse : ℚ) : Option ℚ × ℕ :=
  match best with
  | none => (some mse, 0)
  | some b => if b - mse > 1 / 10 ^ 6 * max 1 b then (some mse, 0) else (some b, cnt + 1)

/-- Model of the epoch loop of `LinearRegression::fit` (linear_regression.cpp:46-97).
`k` is the number of iterations still allowed, `done` the number of epochs
already run.  After each epoch the full-dataset MSE drives `esStep`; the loop
breaks as soon as the counter reaches the patience 5.  Returns the final
`(slope, intercept)` and the number of epochs executed. -/
def fitLoop (lr : ℚ) (bs : ℕ) (X y : List ℚ) (perm : ℕ → List ℕ) :
    ℕ → ℕ → ℚ × ℚ → Option ℚ → ℕ → (ℚ × ℚ) × ℕ
  | 0, done, sb, _, _ => (sb, done)
  | k + 1, done, sb, best, cnt =>
    let sb2 := runEpoch lr bs X y (perm done) sb
    let m := msePure sb2.1 sb2.2 X y
    let bc := esStep best cnt m
    if 5 ≤ bc.2 then (sb2, done + 1)
    else fitLoop lr bs X y perm k (done + 1) sb2 bc.1 bc.2

/-- Model of `LinearRegression::fit` (linear_regression.cpp:16-98): input
validation (mismatch, emptiness, non-positive batch size), then the epoch loop
starting from the current parameters `init` with `none` as the initial
(infinite) best MSE and counter 0. -/
def fit (lr : ℚ) (maxIter : ℕ) (bs : ℤ) (X y : List ℚ) (perm : ℕ → List ℕ)
    (init : ℚ × ℚ) : Except Unit ((ℚ × ℚ) × ℕ) :=
  if X.length ≠ y.length then .error ()
  else if X.length = 0 then .error ()
  else if bs ≤ 0 then .error ()
  else .ok (fitLoop lr bs.toNat X y perm maxIter 0 init none 0)

/-- Spec-side definition, following the words of the claim for C1: the
derivative of the batch mean-squared loss
`MSE(s) = (1/m) Σ (s*x_i + b - y_i)^2` with respect to the slope `s`, namely
`(1/m) Σ 2*(s*x_i + b - y_i)*x_i`.  `specGradSlope_hasDerivAt` below proves
over `ℝ` that this formula is the actual derivative. -/
def specGradSlope (s b : ℚ) (batch : List (ℚ × ℚ)) : ℚ :=
  ((batch.map (fun p => 2 * (s * p.1 + b - p.2) * p.1)).sum) / batch.length

/-- Spec-side definition, following the words of the claim for C1: the
derivative of the batch mean-squared loss with respect to the intercept,
namely `(1/m) Σ 2*(s*x_i + b - y_i)`. -/
def specGradIntercept (s b : ℚ) (batch : List (ℚ × ℚ)) : ℚ :=
  ((batch.map (fun p => 2 * (s * p.1 + b - p.2))).sum) / batch.length

end LinReg

section DerivativeJustification

/-- Over `ℝ`, a single squared-error term `(t*x + b - y)^2` has derivative
`2*(s*x + b - y)*x` in the slope variable at `t = s`.  This justifies the
spec-side gradient formula used to settle claim C1. -/
theorem sqTerm_hasDerivAt (x y b s : ℝ) :
    HasDerivAt (fun t : ℝ => (t * x + b - y) ^ 2) (2 * (s * x + b - y) * x) s := by
  have h0 : HasDerivAt (fun t : ℝ => id t * x + (b - y)) (1 * x) s :=
    ((hasDerivAt_id s).mul_const x).add_const (b - y)
  have h1 : HasDerivAt (fun t : ℝ => t * x + b - y) x s := by
    have heq : (fun t : ℝ => t * x + b - y) = fun t : ℝ => id t * x + (b - y) := by
      funext t; simp only [id_eq]; ring
    rw [heq]; simpa using h0
  simpa [pow_one] using h1.pow 2

/-- Over `ℝ`, the summed squared error of a batch has, in the slope variable,
the derivative `Σ 2*(s*x_i + b - y_i)*x_i`. -/
theorem sumSq_hasDerivAt (b s : ℝ) (l : List (ℝ × ℝ)) :
    HasDerivAt (fun t : ℝ => (l.map (fun p => (t * p.1 + b - p.2) ^ 2)).sum)
      ((l.map (fun p => 2 * (s * p.1 + b - p.2) * p.1)).sum) s := by
  induction l with
  | nil => simpa using hasDerivAt_const s (0 : ℝ)
  | cons p t ih =>
    simp only [List.map_cons, List.sum_cons]
    exact (sqTerm_hasDerivAt p.1 p.2 b s).add ih

/-- Over `ℝ`, the batch mean-squared loss `(1/m) Σ (t*x_i + b - y_i)^2` has, in
the slope variable, the derivative `(1/m) Σ 2*(s*x_i + b - y_i)*x_i`: the
formula `LinReg.specGradSlope` transcribes is the honest derivative of
`MSE_batch` with respect to the slope. -/
theorem mseBatch_hasDerivAt_slope (b s : ℝ) (l : List (ℝ × ℝ)) :
    HasDerivAt (fun t : ℝ => (l.map (fun p => (t * p.1 + b - p.2) ^ 2)).sum / (l.length : ℝ))
      ((l.map (fun p => 2 * (s * p.1 + b - p.2) * p.1)).sum / (l.length : ℝ)) s :=
  (sumSq_hasDerivAt b s l).div_const _

/-- The rational spec-side slope gradient `LinReg.specGradSlope` casts to the
real derivative value established by `mseBatch_hasDerivAt_slope`. -/
theorem specGradSlope_cast (s b : ℚ) (l : List (ℚ × ℚ)) :
    ((LinReg.specGradSlope s b l : ℚ) : ℝ)
      = (l.map (fun p => 2 * ((s : ℝ) * (p.1 : ℝ) + (b : ℝ) - (p.2 : ℝ)) * (p.1 : ℝ))).sum
        / (l.length : ℝ) := by
  have hsum : ∀ m : List (ℚ × ℚ),
      (((m.map (fun p => 2 * (s * p.1 + b - p.2) * p.1)).sum : ℚ) : ℝ)
        = (m.map (fun p => 2 * ((s : ℝ) * (p.1 : ℝ) + (b : ℝ) - (p.2 : ℝ)) * (p.1 : ℝ))).sum := by
    intro m
    induction m with
    | nil => simp
    | cons p t ih =>
      simp only [List.map_cons, List.sum_cons]
      push_cast [ih]
      ring
  unfold LinReg.specGradSlope
  push_cast [hsum]
  ring

end DerivativeJustification

section SumHelpers

/-- Factoring the constant 2 out of the spec-side slope-gradient sum. -/
theorem sum_two_mul_slope (s b : ℚ) (m : List (ℚ × ℚ)) :
    (m.map (fun p => 2 * (s * p.1 + b - p.2) * p.1)).sum
      = 2 * (m.map (fun p => (s * p.1 + b - p.2) * p.1)).sum := by
  induction m with
  | nil => simp
  | cons p t ih =>
    simp only [List.map_cons, List.sum_cons, ih]
    ring

/-- Factoring the constant 2 out of the spec-side intercept-gradient sum. -/
theorem sum_two_mul_intercept (s b : ℚ) (m : List (ℚ × ℚ)) :
    (m.map (fun p => 2 * (s * p.1 + b - p.2))).sum
      = 2 * (m.map (fun p => s * p.1 + b - p.2)).sum := by
  induction m with
  | nil => simp
  | cons p t ih =>
    simp only [List.map_cons, List.sum_cons, ih]
    ring

end SumHelpers

/-- C1 counterexample: with learning rate 1, pre-update parameters (0,0) and the
single-sample batch x=1, y=1, the code's mini-batch step of
`LinearRegression::fit` yields (1,1), while the claimed update rule
`slope -= lr * dMSE/dslope`, `intercept -= lr * dMSE/dintercept` (with
`dMSE/dslope` the genuine derivative of the batch mean of
`(slope*x + intercept - y)^2`, see `mseBatch_hasDerivAt_slope`) would yield
(2,2): the code applies HALF the claimed gradient. -/
theorem C1_fit_batch_step_counterexample :
    LinReg.batchStep 1 (0, 0) [(1, 1)] = (1, 1) ∧
    (LinReg.batchStep 1 (0, 0) [(1, 1)]).1 ≠ 0 - 1 * LinReg.specGradSlope 0 0 [(1, 1)] ∧
    (LinReg.batchStep 1 (0, 0) [(1, 1)]).2 ≠ 0 - 1 * LinReg.specGradIntercept 0 0 [(1, 1)] := by
  refine ⟨?_, ?_, ?_⟩ <;>
    norm_num [LinReg.batchStep, LinReg.specGradSlope, LinReg.specGradIntercept]

/-- C1 (amended): for every learning rate, parameters and non-empty batch, the
mini-batch step of `LinearRegression::fit` updates both parameters by the
learning rate times ONE HALF of the batch-mean gradient of the mean-squared
loss (equivalently, by the learning rate times the batch mean of
`(pred - y) * x` for the slope and of `(pred - y)` for the intercept),
evaluated at the pre-update parameters. -/
theorem C1_fit_batch_step_amended (lr s b : ℚ) (batch : List (ℚ × ℚ)) (_h : batch ≠ []) :
    LinReg.batchStep lr (s, b) batch
      = (s - lr * (LinReg.specGradSlope s b batch / 2),
         b - lr * (LinReg.specGradIntercept s b batch / 2)) := by
  simp only [LinReg.batchStep, LinReg.specGradSlope, LinReg.specGradIntercept,
    sum_two_mul_slope, sum_two_mul_intercept, Prod.mk.injEq]
  constructor <;> ring

/-- Witness for `C1_fit_batch_step_amended` at lr=1, (s,b)=(0,0), batch [(2,3)]. -/
theorem C1_fit_batch_step_amended_witness :
    LinReg.batchStep 1 (0, 0) [(2, 3)]
      = (0 - 1 * (LinReg.specGradSlope 0 0 [(2, 3)] / 2),
         0 - 1 * (LinReg.specGradIntercept 0 0 [(2, 3)] / 2)) :=
  C1_fit_batch_step_amended 1 0 0 [(2, 3)] (List.cons_ne_nil _ _)

/-- Spec-side definition following the words of the claim for C3: the
closed-form slope `Σ (x_i - x̄)(y_i - ȳ) / Σ (x_i - x̄)^2`, set to 0 when the
absolute value of the denominator is below `1e-10`. -/
def specSlopeA (X y : List ℚ) : ℚ :=
  if |(X.map (fun x => (x - LinReg.mean X) ^ 2)).sum| < 1 / 10 ^ 10 then 0
  else
    ((X.zip y).map (fun p => (p.1 - LinReg.mean X) * (p.2 - LinReg.mean y))).sum
      / (X.map (fun x => (x - LinReg.mean X) ^ 2)).sum

/-- Rewriting the code's self-product denominator as the spec's square. -/
theorem denom_sq_eq (X : List ℚ) :
    (X.map (fun x => (x - LinReg.mean X) * (x - LinReg.mean X))).sum
      = (X.map (fun x => (x - LinReg.mean X) ^ 2)).sum := by
  induction X with
  | nil => simp
  | cons a t _ =>
    have : ∀ (m : ℚ) (l : List ℚ),
        (l.map (fun x => (x - m) * (x - m))).sum = (l.map (fun x => (x - m) ^ 2)).sum := by
      intro m l
      induction l with
      | nil => simp
      | cons b u ih2 => simp only [List.map_cons, List.sum_cons, ih2]; ring
    exact this _ _

/-- C3: `fit_analytical` throws `InvalidArgument` exactly when the lengths
mismatch or the inputs are empty; otherwise it sets
`slope = Σ (x_i - x̄)(y_i - ȳ) / Σ (x_i - x̄)^2` (0 when the denominator's
absolute value is below 1e-10) and `intercept = ȳ - slope * x̄`. -/
theorem C3_fit_analytical_characterisation (X y : List ℚ) :
    (LinReg.fit_analytical X y = .error () ↔ X.length ≠ y.length ∨ X = []) ∧
    (X.length = y.length → X ≠ [] →
      LinReg.fit_analytical X y
        = .ok (specSlopeA X y,
               LinReg.mean y - specSlopeA X y * LinReg.mean X)) := by
  constructor
  · by_cases h1 : X.length = y.length
    · by_cases h2 : X = []
      · subst h2
        simp [LinReg.fit_analytical, h1.symm]
      · have h2l : X.length ≠ 0 := fun hc => h2 (List.length_eq_zero.mp hc)
        have h3 : y.length ≠ 0 := by rw [← h1]; exact h2l
        simp [LinReg.fit_analytical, h1, h2, h2l, h3]
    · simp [LinReg.fit_analytical, h1]
  · intro h1 h2
    have h2l : X.length ≠ 0 := fun hc => h2 (List.length_eq_zero.mp hc)
    have h3 : y.length ≠ 0 := by rw [← h1]; exact h2l
    simp [LinReg.fit_analytical, h1, h2l, h3, specSlopeA, denom_sq_eq]

/-- Witness for `C3_fit_analytical_characterisation` at X=[1,2], y=[3,5]. -/
theorem C3_fit_analytical_characterisation_witness :
    LinReg.fit_analytical [1, 2] [3, 5]
      = .ok (specSlopeA [1, 2] [3, 5],
             LinReg.mean [3, 5] - specSlopeA [1, 2] [3, 5] * LinReg.mean [1, 2]) :=
  (C3_fit_analytical_characterisation [1, 2] [3, 5]).2 rfl (List.cons_ne_nil _ _)

/-- C7: `get_mse` on two empty inputs returns 0 without throwing and throws on a
length mismatch, while `get_r_squared` throws exactly when the lengths mismatch
or the inputs are empty. -/
theorem C7_metric_error_asymmetry (s b : ℚ) :
    LinReg.get_mse s b [] [] = .ok 0 ∧
    (∀ X y : List ℚ, X.length ≠ y.length → LinReg.get_mse s b X y = .error ()) ∧
    (∀ X y : List ℚ,
      LinReg.get_r_squared s b X y = .error () ↔ X.length ≠ y.length ∨ X = []) := by
  refine ⟨by simp [LinReg.get_mse, LinReg.mean_squared_error], ?_, ?_⟩
  · intro X y h
    simp [LinReg.get_mse, LinReg.mean_squared_error, h]
  · intro X y
    by_cases h : X.length ≠ y.length ∨ X.length = 0
    · rcases h with h | h
      · simp [LinReg.get_r_squared, h]
      · simp [LinReg.get_r_squared, h, List.length_eq_zero.mp h]
    · push_neg at h
      have hX : X ≠ [] := fun hc => h.2 (by simp [hc])
      have hY : y ≠ [] := fun hc => h.2 (by rw [h.1, hc]; simp)
      simp [LinReg.get_r_squared, h.1, h.2, hX, hY]

/-- Witness for `C7_metric_error_asymmetry` at slope 2, intercept 3, with the
mismatch instance X=[1], y=[] and the R-squared instance X=y=[1]. -/
theorem C7_metric_error_asymmetry_witness :
    LinReg.get_mse 2 3 [] [] = .ok 0 ∧
    LinReg.get_mse 2 3 [1] [] = .error () ∧
    (LinReg.get_r_squared 2 3 [1] [1] = .error ()
      ↔ ([1] : List ℚ).length ≠ ([1] : List ℚ).length ∨ ([1] : List ℚ) = []) :=
  ⟨(C7_metric_error_asymmetry 2 3).1,
   (C7_metric_error_asymmetry 2 3).2.1 [1] [] (by simp),
   (C7_metric_error_asymmetry 2 3).2.2 [1] [1]⟩

/-- The epoch loop of `fit` executes at most as many further epochs as it has
iterations left. -/
theorem fitLoop_epochs_le (lr : ℚ) (bs : ℕ) (X y : List ℚ) (perm : ℕ → List ℕ) :
    ∀ (k done : ℕ) (sb : ℚ × ℚ) (best : Option ℚ) (cnt : ℕ),
      (LinReg.fitLoop lr bs X y perm k done sb best cnt).2 ≤ done + k := by
  intro k
  induction k with
  | zero =>
    intro done sb best cnt
    simp [LinReg.fitLoop]
  | succ n ih =>
    intro done sb best cnt
    simp only [LinReg.fitLoop]
    split
    · dsimp only
      omega
    · exact (ih (done + 1) _ _ _).trans (by omega)

/-- C8: after each epoch of `LinearRegression::fit` the full-dataset MSE drives
the early-stopping state: with a finite best MSE, an improvement strictly above
`1e-6 * max 1 best` resets the counter to 0 and updates the best, anything else
increments the counter; the epoch loop stops as soon as the counter reaches 5;
and `fit` runs at most `max_iterations` epochs. -/
theorem C8_fit_early_stopping (lr : ℚ) (bs : ℕ) (perm : ℕ → List ℕ) :
    (∀ (X y : List ℚ) (maxIter : ℕ) (bsz : ℤ) (init : ℚ × ℚ) (r : (ℚ × ℚ) × ℕ),
        LinReg.fit lr maxIter bsz X y perm init = .ok r → r.2 ≤ maxIter) ∧
    (∀ (b m : ℚ) (cnt : ℕ),
        (b - m > 1 / 10 ^ 6 * max 1 b → LinReg.esStep (some b) cnt m = (some m, 0)) ∧
        (¬ b - m > 1 / 10 ^ 6 * max 1 b → LinReg.esStep (some b) cnt m = (some b, cnt + 1))) ∧
    (∀ (X y : List ℚ) (k done : ℕ) (sb : ℚ × ℚ) (best : Option ℚ) (cnt : ℕ),
        5 ≤ (LinReg.esStep best cnt
              (LinReg.msePure (LinReg.runEpoch lr bs X y (perm done) sb).1
                (LinReg.runEpoch lr bs X y (perm done) sb).2 X y)).2 →
        LinReg.fitLoop lr bs X y perm (k + 1) done sb best cnt
          = (LinReg.runEpoch lr bs X y (perm done) sb, done + 1)) := by
  refine ⟨?_, ?_, ?_⟩
  · intro X y maxIter bsz init r hr
    simp only [LinReg.fit] at hr
    split at hr
    · simp at hr
    · split at hr
      · simp at hr
      · split at hr
        · simp at hr
        · cases hr
          simpa using fitLoop_epochs_le lr bsz.toNat X y perm maxIter 0 init none 0
  · intro b m cnt
    constructor <;> intro h
    · simp only [LinReg.esStep]
      rw [if_pos h]
    · simp only [LinReg.esStep]
      rw [if_neg h]
  · intro X y k done sb best cnt h
    simp only [LinReg.fitLoop]
    split
    · rfl
    · next hc => exact absurd h hc

/-- Witness for `C8_fit_early_stopping` with concrete runs of `fit`, `esStep`
and `fitLoop`. -/
theorem C8_fit_early_stopping_witness :
    ((((5 : ℚ), (7 : ℚ)), 0).2 : ℕ) ≤ 0 ∧
    LinReg.esStep (some 1) 0 0 = (some 0, 0) ∧
    LinReg.fitLoop 1 1 [] [] (fun _ => []) 1 0 (0, 0) (some 0) 4
      = (LinReg.runEpoch 1 1 [] [] [] (0, 0), 0 + 1) := by
  refine ⟨?_, ?_, ?_⟩
  · exact (C8_fit_early_stopping 1 1 (fun _ => [])).1 [1] [1] 0 1 (5, 7) ((5, 7), 0) rfl
  · exact ((C8_fit_early_stopping 1 1 (fun _ => [])).2.1 1 0 0).1 (by norm_num)
  · exact (C8_fit_early_stopping 1 1 (fun _ => [])).2.2 [] [] 0 0 (0, 0) (some 0) 4
      (by norm_num [LinReg.esStep, LinReg.msePure, LinReg.runEpoch, LinReg.chunks])

namespace NN

/-- Vectors of the neural-network code (`using Vector = std::vector<double>`). -/
abbrev Vec := List ℚ

/-- Matrices of the neural-network code (`using Matrix = std::vector<Vector>`). -/
abbrev Mat := List (List ℚ)

/-- Dot product of a matrix row with a vector, as computed by the inner loop of
`NeuralNetwork::multiply(Matrix, Vector)`.  The C++ loop runs over
`cols = matrix[0].size()`; for the rectangular matrices the class maintains this
equals `zipWith`.  A ragged matrix is undefined behaviour in the C++ and is
modelled by the truncating `zipWith`. -/
def dot (row v : Vec) : ℚ := (List.zipWith (fun a b => a * b) row v).sum

/-- The value `NeuralNetwork::multiply(Matrix, Vector)` produces once its guard
has passed. -/
def matVecP (m : Mat) (v : Vec) : Vec := m.map (fun row => dot row v)

/-- Model of `NeuralNetwork::multiply(Matrix, Vector)` (matrix-vector product):
throws when the matrix is empty or its column count differs from the vector
size. -/
def matVec (m : Mat) (v : Vec) : Except Unit Vec :=
  match m with
  | [] => .error ()
  | r :: rs => if r.length ≠ v.length then .error () else .ok (matVecP (r :: rs) v)

/-- Model of `NeuralNetwork::add` (vector addition with size guard). -/
def addV (a b : Vec) : Except Unit Vec :=
  if a.length ≠ b.length then .error ()
  else .ok (List.zipWith (fun x y => x + y) a b)

/-- The value `NeuralNetwork::subtract(Vector, Vector)` produces once its guard
has passed. -/
def subVP (a b : Vec) : Vec := List.zipWith (fun x y => x - y) a b

/-- Model of `NeuralNetwork::subtract(Vector, Vector)` (size-guarded). -/
def subV (a b : Vec) : Except Unit Vec :=
  if a.length ≠ b.length then .error () else .ok (subVP a b)

/-- The value `NeuralNetwork::elementwise_multiply` produces once its guard has
passed. -/
def mulVP (a b : Vec) : Vec := List.zipWith (fun x y => x * y) a b

/-- Model of `NeuralNetwork::elementwise_multiply` (size-guarded). -/
def elementwise_multiply (a b : Vec) : Except Unit Vec :=
  if a.length ≠ b.length then .error () else .ok (mulVP a b)

/-- Model of `NeuralNetwork::transpose`.  `result[j][i] = m[i][j]` with the
column count taken from the first row, exactly as the C++ does; a ragged matrix
(C++ undefined behaviour) is padded with 0. -/
def transpose (m : Mat) : Mat :=
  match m with
  | [] => []
  | r :: _ => (List.range r.length).map (fun j => m.map (fun row => row.getD j 0))

/-- Model of `NeuralNetwork::outer_product` (`vec1 * vec2^T`, no guard). -/
def outer_product (a b : Vec) : Mat := a.map (fun x => b.map (fun y => x * y))

/-- Model of `NeuralNetwork::multiply(Matrix, double)` (scalar scaling). -/
def smulM (m : Mat) (c : ℚ) : Mat := m.map (fun row => row.map (fun v => v * c))

/-- Model of `NeuralNetwork::multiply(Vector, double)` (scalar scaling). -/
def smulV (v : Vec) (c : ℚ) : Vec := v.map (fun x => x * c)

/-- The value `NeuralNetwork::subtract(Matrix, Matrix)` produces once its guard
has passed. -/
def subMP (a b : Mat) : Mat := List.zipWith subVP a b

/-- Model of `NeuralNetwork::subtract(Matrix, Matrix)`: throws when the row
counts differ or (for non-empty matrices) the first rows' lengths differ. -/
def subM (a b : Mat) : Except Unit Mat :=
  if a.length ≠ b.length ∨ (a ≠ [] ∧ (a.headD []).length ≠ (b.headD []).length) then .error ()
  else .ok (subMP a b)

/-- Model of `NeuralNetwork::sigmoid_derivative`, parametric in the activation
`sig` standing for the C++ `sigmoid`: `sig x * (1 - sig x)`, evaluated on the
raw pre-activation. -/
def sigmoid_derivative (sig : ℚ → ℚ) (x : ℚ) : ℚ := sig x * (1 - sig x)

/-- The state of a `NeuralNetwork` object: the durable model state
(`layer_sizes_`, `weights_`, `biases_`, `learning_rate_`) and the transient
forward-pass stores (`layer_outputs_`, `layer_inputs_`). -/
structure Net where
  layer_sizes : List ℕ
  weights : List Mat
  biases : List Vec
  learning_rate : ℚ
  layer_outputs : List Vec
  layer_inputs : List Vec

/-- Model of `NeuralNetwork::initialize_weights_biases`: for each transition
`i` a `layer_sizes[i+1] x layer_sizes[i]` weight matrix and a
`layer_sizes[i+1]` bias vector.  The C++ fills them with random draws
(`U(-0.5,0.5) * sqrt(1/cols)` and `U(0,0.1)`); the draws are abstracted into
the functions `wdraw`/`bdraw`, which carries no loss for the claims, none of
which depends on the drawn values. -/
def initialize_weights_biases (ls : List ℕ) (wdraw : ℕ → ℕ → ℕ → ℚ)
    (bdraw : ℕ → ℕ → ℚ) : List Mat × List Vec :=
  ((List.range (ls.length - 1)).map (fun i =>
      (List.range (ls.getD (i + 1) 0)).map (fun r =>
        (List.range (ls.getD i 0)).map (fun c => wdraw i r c))),
   (List.range (ls.length - 1)).map (fun i =>
      (List.range (ls.getD (i + 1) 0)).map (fun r => bdraw i r)))

/-- Model of the `NeuralNetwork` constructor: throws when `layer_sizes` has
fewer than 2 entries (the values of the entries are not inspected), otherwise
initialises the weights and biases. -/
def mkNetwork (ls : List ℕ) (lr : ℚ) (wdraw : ℕ → ℕ → ℕ → ℚ)
    (bdraw : ℕ → ℕ → ℚ) : Except Unit Net :=
  if ls.length < 2 then .error ()
  else
    .ok { layer_sizes := ls
          weights := (initialize_weights_biases ls wdraw bdraw).1
          biases := (initialize_weights_biases ls wdraw bdraw).2
          learning_rate := lr
          layer_outputs := []
          layer_inputs := [] }

/-- The layer loop shared by `NeuralNetwork::forward_pass` and
`NeuralNetwork::predict`: for each transition `z = W * a + b`, with sigmoid
activation on every transition but the last and the identity on the last.
Returns the per-transition pre-activations `z`, the per-transition activations
and the final output.  An exhausted bias list is C++ undefined behaviour
(unreachable for the shapes the class maintains) and is modelled as an
error. -/
def fwd (sig : ℚ → ℚ) : List Mat → List Vec → Vec → Except Unit (List Vec × List Vec × Vec)
  | [], _, a => .ok ([], [], a)
  | _ :: _, [], _ => .error ()
  | w :: ws, b :: bs, a =>
    match matVec w a with
    | .error e => .error e
    | .ok mv =>
      match addV mv b with
      | .error e => .error e
      | .ok z =>
        match ws with
        | [] => .ok ([z], [z], z)
        | _ :: _ =>
          match fwd sig ws bs (z.map sig) with
          | .error e => .error e
          | .ok res => .ok (z :: res.1, z.map sig :: res.2.1, res.2.2)

/-- Model of `NeuralNetwork::forward_pass`: input-size guard, then the layer
loop; stores every pre-activation in `layer_inputs` and every activation
(including the input itself) in `layer_outputs`, and returns the final
output. -/
def forward_pass (sig : ℚ → ℚ) (net : Net) (input : Vec) : Except Unit (Net × Vec) :=
  if input.length ≠ net.layer_sizes.headD 0 then .error ()
  else
    match fwd sig net.weights net.biases input with
    | .error e => .error e
    | .ok res =>
      .ok ({ net with layer_outputs := input :: res.2.1, layer_inputs := res.1 }, res.2.2)

/-- The recursion inside `NeuralNetwork::predict`: identical mathematics to the
`forward_pass` loop, with no state retention. -/
def predictAux (sig : ℚ → ℚ) : List Mat → List Vec → Vec → Except Unit Vec
  | [], _, a => .ok a
  | _ :: _, [], _ => .error ()
  | w :: ws, b :: bs, a =>
    match matVec w a with
    | .error e => .error e
    | .ok mv =>
      match addV mv b with
      | .error e => .error e
      | .ok z =>
        match ws with
        | [] => .ok z
        | _ :: _ => predictAux sig ws bs (z.map sig)

/-- Model of `NeuralNetwork::predict`: input-size guard, then the layer loop
without touching any state. -/
def predict (sig : ℚ → ℚ) (net : Net) (input : Vec) : Except Unit Vec :=
  if input.length ≠ net.layer_sizes.headD 0 then .error ()
  else predictAux sig net.weights net.biases input

end NN

namespace NN

/-- The downward delta loop of `NeuralNetwork::backpropagate` (step 3).  Called
with the weight list from index 1 upward (`weights.drop 1`) paired with the
stored pre-activations of the hidden layers (`layer_inputs` without its last
entry) and the output-layer delta `d`.  Produces the full delta list:
`delta[i-1] = (W_i^T * delta[i]) .* sigmoid_derivative(z_{i-1})`, computed with
the pre-update weights. -/
def mkDeltas (sig : ℚ → ℚ) : List Mat → List Vec → Vec → Except Unit (List Vec)
  | [], _, d => .ok [d]
  | _ :: _, [], d => .ok [d]
  | w :: ws, z :: zs, d =>
    match mkDeltas sig ws zs d with
    | .error e => .error e
    | .ok rest =>
      match matVec (transpose w) (rest.headD []) with
      | .error e => .error e
      | .ok pd =>
        match elementwise_multiply pd (z.map (sigmoid_derivative sig)) with
        | .error e => .error e
        | .ok dl => .ok (dl :: rest)

/-- The parameter update of one layer in step 4 of
`NeuralNetwork::backpropagate`: `W -= lr * (delta (x) prev_activation)` and
`b -= lr * delta`. -/
def updateLayer (lr : ℚ) (w : Mat) (b : Vec) (delta aPrev : Vec) :
    Except Unit (Mat × Vec) :=
  match subM w (smulM (outer_product delta aPrev) lr) with
  | .error e => .error e
  | .ok w2 =>
    match subV b (smulV delta lr) with
    | .error e => .error e
    | .ok b2 => .ok (w2, b2)

/-- The update loop of step 4 of `NeuralNetwork::backpropagate` over all
layers: weights, biases, deltas and previous-layer activations travel in
lock-step.  Exhausting the other lists while weights remain is C++ undefined
behaviour, modelled as an error. -/
def updateAll (lr : ℚ) : List Mat → List Vec → List Vec → List Vec →
    Except Unit (List Mat × List Vec)
  | [], _, _, _ => .ok ([], [])
  | w :: ws, b :: bs, d :: ds, a :: as2 =>
    match updateLayer lr w b d a with
    | .error e => .error e
    | .ok wb =>
      match updateAll lr ws bs ds as2 with
      | .error e => .error e
      | .ok rest => .ok (wb.1 :: rest.1, wb.2 :: rest.2)
  | _ :: _, _, _, _ => .error ()

/-- Model of `NeuralNetwork::backpropagate` as a state transformer that also
reports whether an exception was thrown.  Mirrors the C++ order of events:
`forward_pass` runs first (so on the target-size failure path the transient
`layer_outputs`/`layer_inputs` have already been overwritten and the durable
weights and biases have not been touched), then the target-size guard, then the
delta computation and the parameter updates. -/
def backpropagateFull (sig : ℚ → ℚ) (net : Net) (input target : Vec) : Net × Bool :=
  if input.length ≠ net.layer_sizes.headD 0 then (net, true)
  else
    match fwd sig net.weights net.biases input with
    | .error _ => (net, true)
    | .ok res =>
      let net1 : Net :=
        { net with layer_outputs := input :: res.2.1, layer_inputs := res.1 }
      if target.length ≠ net.layer_sizes.getLastD 0 then (net1, true)
      else
        match subV res.2.2 target with
        | .error _ => (net1, true)
        | .ok outDelta =>
          match mkDeltas sig (net.weights.drop 1) (res.1.dropLast) outDelta with
          | .error _ => (net1, true)
          | .ok ds =>
            match updateAll net.learning_rate net.weights net.biases ds
                (input :: res.2.1) with
            | .error _ => (net1, true)
            | .ok wb => ({ net1 with weights := wb.1, biases := wb.2 }, false)

/-- Model of `NeuralNetwork::backpropagate` in the `Except` view: the new state
on success, `.error ()` when the C++ would throw. -/
def backpropagate (sig : ℚ → ℚ) (net : Net) (input target : Vec) : Except Unit Net :=
  if (backpropagateFull sig net input target).2 then .error ()
  else .ok (backpropagateFull sig net input target).1

/-- Model of `NeuralNetwork::train`: exactly one `backpropagate` call. -/
def train (sig : ℚ → ℚ) (net : Net) (input target : Vec) : Except Unit Net :=
  backpropagate sig net input target

/-- Model of `NeuralNetwork::mean_squared_error(Vector, Vector)`:
size-guarded mean of the squared componentwise errors. -/
def nnMSE (predicted target : Vec) : Except Unit ℚ :=
  if predicted.length ≠ target.length then .error ()
  else .ok (((subVP predicted target).map (fun e => e * e)).sum / predicted.length)

/-- The loss-reporting pass of `NeuralNetwork::train_for_epochs`: sums
`mean_squared_error(predict(inputs[i]), targets[i])` over the dataset.  The
printing itself is I/O and out of scope; what matters is that the pass uses
`predict` (leaving all state untouched) and can itself throw. -/
def sumMSE (sig : ℚ → ℚ) (net : Net) : List Vec → List Vec → Except Unit ℚ
  | [], _ => .ok 0
  | i :: is2, t :: ts =>
    match predict sig net i with
    | .error e => .error e
    | .ok p =>
      match nnMSE p t with
      | .error e => .error e
      | .ok m =>
        match sumMSE sig net is2 ts with
        | .error e => .error e
        | .ok rest => .ok (m + rest)
  | _ :: _, [] => .error ()

/-- One epoch of `NeuralNetwork::train_for_epochs`: one `backpropagate` per
sample, in the given (shuffled) index order. -/
def trainEpoch (sig : ℚ → ℚ) (inputs targets : List Vec) :
    Net → List ℕ → Except Unit Net
  | net, [] => .ok net
  | net, idx :: rest =>
    match backpropagate sig net (inputs.getD idx []) (targets.getD idx []) with
    | .error e => .error e
    | .ok net2 => trainEpoch sig inputs targets net2 rest

/-- The epoch loop of `NeuralNetwork::train_for_epochs` over the listed epoch
numbers: train one epoch in the order `perm e`, then, when `(e+1)` is a
multiple of `repEvery` or `e` is the final epoch, evaluate the full-dataset
loss with `predict` (the reported value is printed, not stored). -/
def epochLoop (sig : ℚ → ℚ) (inputs targets : List Vec) (perm : ℕ → List ℕ)
    (repEvery epochs : ℕ) : Net → List ℕ → Except Unit Net
  | net, [] => .ok net
  | net, e :: es =>
    match trainEpoch sig inputs targets net (perm e) with
    | .error er => .error er
    | .ok net2 =>
      if (e + 1) % repEvery = 0 ∨ e = epochs - 1 then
        match sumMSE sig net2 inputs targets with
        | .error er => .error er
        | .ok _ => epochLoop sig inputs targets perm repEvery epochs net2 es
      else epochLoop sig inputs targets perm repEvery epochs net2 es

/-- Stands in for the C++ quiet `NAN` pushed by `train_for_epochs` when a
prediction comes back empty; that branch is reachable only when the output
layer has size 0. -/
def nanQ : ℚ := 0

/-- The final prediction pass of `NeuralNetwork::train_for_epochs`: one
`predict` per input in the ORIGINAL order, keeping component 0 of each
prediction (or the NaN stand-in when a prediction is empty). -/
def finalPreds (sig : ℚ → ℚ) (net : Net) : List Vec → Except Unit (List ℚ)
  | [] => .ok []
  | i :: is2 =>
    match predict sig net i with
    | .error e => .error e
    | .ok p =>
      match finalPreds sig net is2 with
      | .error e => .error e
      | .ok rest => .ok (p.headD nanQ :: rest)

/-- Model of `NeuralNetwork::train_for_epochs`: entry guard (empty inputs or
count mismatch), the epoch loop, then the final prediction pass.  Returns the
post-training network state together with the returned prediction vector. -/
def train_for_epochs (sig : ℚ → ℚ) (net : Net) (inputs targets : List Vec)
    (epochs : ℤ) (repEvery : ℕ) (perm : ℕ → List ℕ) :
    Except Unit (Net × List ℚ) :=
  if inputs.length = 0 ∨ inputs.length ≠ targets.length then .error ()
  else
    match epochLoop sig inputs targets perm repEvery epochs.toNat net
        (List.range epochs.toNat) with
    | .error e => .error e
    | .ok net2 =>
      match finalPreds sig net2 inputs with
      | .error e => .error e
      | .ok preds => .ok (net2, preds)

end NN

namespace NN

/-- Dimension discipline of a network: walking the layer-size list, each weight
matrix is `next x prev` (rectangular) and each bias vector has length `next`. -/
def dimsOk : List ℕ → List Mat → List Vec → Bool
  | a :: b :: rest, w :: ws, bv :: bs =>
    w.length == b && w.all (fun row => row.length == a) && bv.length == b &&
      dimsOk (b :: rest) ws bs
  | [_], [], [] => true
  | _, _, _ => false

/-- Well-formedness of a network state: at least two layers and the dimension
discipline of `dimsOk`.  This is the reachable-state invariant claimed by the
spec (the transient stores are deliberately unconstrained). -/
def Wf (net : Net) : Prop :=
  2 ≤ net.layer_sizes.length ∧ dimsOk net.layer_sizes net.weights net.biases = true

/-- All layer sizes are positive (the spec's data-model assumption on
`layer_sizes`). -/
def PosSizes (net : Net) : Prop := ∀ s ∈ net.layer_sizes, 0 < s

/-- `headD` is `getD 0`. -/
theorem headD_eq_getD {α : Type} (l : List α) (d : α) : l.headD d = l.getD 0 d := by
  cases l <;> rfl

/-- `getD` ignores `dropLast` strictly before the last position. -/
theorem getD_dropLast {α : Type} :
    ∀ (l : List α) (j : ℕ) (d : α), j + 1 < l.length → l.dropLast.getD j d = l.getD j d := by
  intro l
  induction l with
  | nil => intro j d h; simp at h
  | cons a t ih =>
    intro j d h
    cases t with
    | nil => simp at h
    | cons b u =>
      cases j with
      | zero => simp [List.dropLast]
      | succ j2 =>
        have := ih j2 d (by simpa using h)
        simpa [List.dropLast, List.getD_cons_succ] using this

/-- `getLastD` of a cons with a non-empty tail ignores the head. -/
theorem getLastD_cons_of_ne {α : Type} (a : α) (l : List α) (d : α) (h : l ≠ []) :
    (a :: l).getLastD d = l.getLastD d := by
  cases l with
  | nil => exact absurd rfl h
  | cons b u => simp [List.getLastD_eq_getLast?, List.getLast?_cons_cons]


/-- Unpacking `dimsOk`: the list lengths and the per-transition dimensions. -/
theorem dimsOk_facts :
    ∀ (ls : List ℕ) (ws : List Mat) (bs : List Vec),
      dimsOk ls ws bs = true →
      ws.length + 1 = ls.length ∧ bs.length = ws.length ∧
      (∀ j, j < ws.length →
        (ws.getD j []).length = ls.getD (j + 1) 0 ∧
        (∀ row ∈ ws.getD j [], row.length = ls.getD j 0) ∧
        (bs.getD j []).length = ls.getD (j + 1) 0) := by
  intro ls
  induction ls with
  | nil => intro ws bs h; cases ws <;> cases bs <;> simp [dimsOk] at h
  | cons a t ih =>
    intro ws bs h
    cases t with
    | nil =>
      cases ws with
      | nil =>
        cases bs with
        | nil => refine ⟨rfl, rfl, ?_⟩; intro j hj; simp at hj
        | cons bv bs2 => simp [dimsOk] at h
      | cons w ws2 => cases bs <;> simp [dimsOk] at h
    | cons b rest =>
      cases ws with
      | nil => cases bs <;> simp [dimsOk] at h
      | cons w ws2 =>
        cases bs with
        | nil => simp [dimsOk] at h
        | cons bv bs2 =>
          simp only [dimsOk, Bool.and_eq_true, beq_iff_eq, List.all_eq_true] at h
          obtain ⟨⟨⟨hw, hrows⟩, hbv⟩, hrec⟩ := h
          obtain ⟨ihlen, ihblen, ihj⟩ := ih ws2 bs2 hrec
          refine ⟨by simp at ihlen ⊢; omega, by simp at ihblen ⊢; omega, ?_⟩
          intro j hj
          cases j with
          | zero =>
            refine ⟨by simpa using hw, ?_, by simpa using hbv⟩
            intro row hrow
            simpa using hrows row (by simpa using hrow)
          | succ j2 =>
            have hj2 : j2 < ws2.length := by simpa using hj
            obtain ⟨h1, h2, h3⟩ := ihj j2 hj2
            refine ⟨by simpa using h1, ?_, by simpa using h3⟩
            intro row hrow
            simpa using h2 row (by simpa using hrow)

/-- Rebuilding `dimsOk` from the list lengths and per-transition dimensions. -/
theorem dimsOk_intro :
    ∀ (ls : List ℕ) (ws : List Mat) (bs : List Vec),
      ws.length + 1 = ls.length → bs.length = ws.length →
      (∀ j, j < ws.length →
        (ws.getD j []).length = ls.getD (j + 1) 0 ∧
        (∀ row ∈ ws.getD j [], row.length = ls.getD j 0) ∧
        (bs.getD j []).length = ls.getD (j + 1) 0) →
      dimsOk ls ws bs = true := by
  intro ls
  induction ls with
  | nil => intro ws bs h1 h2 h3; simp at h1
  | cons a t ih =>
    intro ws bs h1 h2 h3
    cases t with
    | nil =>
      cases ws with
      | nil =>
        cases bs with
        | nil => rfl
        | cons bv bs2 => simp at h2
      | cons w ws2 => simp at h1
    | cons b rest =>
      cases ws with
      | nil => simp at h1
      | cons w ws2 =>
        cases bs with
        | nil => simp at h2
        | cons bv bs2 =>
          obtain ⟨hw, hrows, hbv⟩ := h3 0 (by simp)
          simp only [dimsOk, Bool.and_eq_true, beq_iff_eq, List.all_eq_true]
          refine ⟨⟨⟨by simpa using hw, ?_⟩, by simpa using hbv⟩, ?_⟩
          · intro row hrow
            simpa using hrows row (by simpa using hrow)
          · refine ih ws2 bs2 (by simp at h1 ⊢; omega) (by simp at h2 ⊢; omega) ?_
            intro j hj
            obtain ⟨g1, g2, g3⟩ := h3 (j + 1) (by simp; omega)
            refine ⟨by simpa using g1, ?_, by simpa using g3⟩
            intro row hrow
            simpa using g2 row (by simpa using hrow)

/-- The guarded matrix-vector product has one entry per matrix row. -/
theorem matVecP_length (m : Mat) (v : Vec) : (matVecP m v).length = m.length := by
  simp [matVecP]

/-- The head of a non-empty list is a member. -/
theorem headD_mem {α : Type} (l : List α) (d : α) (h : l ≠ []) : l.headD d ∈ l := by
  cases l with
  | nil => exact absurd rfl h
  | cons a t => simp

/-- `multiply(Matrix, Vector)` succeeds on a non-empty matrix whose first-row
length matches the vector. -/
theorem matVec_ok_of (m : Mat) (v : Vec) (hne : m ≠ []) (hhead : (m.headD []).length = v.length) :
    matVec m v = .ok (matVecP m v) := by
  cases m with
  | nil => exact absurd rfl hne
  | cons r rs =>
    have hr : r.length = v.length := by simpa using hhead
    simp [matVec, hr]

/-- `add` succeeds on equal-length vectors. -/
theorem addV_ok (a b : Vec) (h : a.length = b.length) :
    addV a b = .ok (List.zipWith (fun x y => x + y) a b) := by
  simp [addV, h]

/-- `subtract` succeeds on equal-length vectors. -/
theorem subV_ok (a b : Vec) (h : a.length = b.length) :
    subV a b = .ok (subVP a b) := by
  simp [subV, h]

/-- `elementwise_multiply` succeeds on equal-length vectors. -/
theorem elementwise_multiply_ok (a b : Vec) (h : a.length = b.length) :
    elementwise_multiply a b = .ok (mulVP a b) := by
  simp [elementwise_multiply, h]

/-- The transpose of a non-empty matrix has one row per original column. -/
theorem transpose_length (r : Vec) (rs : Mat) : (transpose (r :: rs)).length = r.length := by
  simp [transpose]

/-- Every row of a transpose has one entry per original row. -/
theorem transpose_rows (m : Mat) : ∀ row ∈ transpose m, row.length = m.length := by
  cases m with
  | nil => intro row h; simp [transpose] at h
  | cons r rs =>
    intro row h
    simp only [transpose, List.mem_map, List.mem_range] at h
    obtain ⟨j, _, rfl⟩ := h
    simp

/-- Success and shape analysis of the forward layer loop on a well-dimensioned,
positive-size network: it succeeds, records one pre-activation and one
activation per transition with the right lengths, and the output has the size
of the last layer. -/
theorem fwd_ok (sig : ℚ → ℚ) :
    ∀ (ws : List Mat) (ls : List ℕ) (bs : List Vec) (a : Vec),
      ws ≠ [] →
      dimsOk ls ws bs = true →
      (∀ s ∈ ls, 0 < s) →
      a.length = ls.headD 0 →
      ∃ zs as2 out, fwd sig ws bs a = .ok (zs, as2, out) ∧
        zs.length = ws.length ∧ as2.length = ws.length ∧
        (∀ j, j < ws.length →
          (zs.getD j []).length = ls.getD (j + 1) 0 ∧
          (as2.getD j []).length = ls.getD (j + 1) 0) ∧
        out.length = ls.getLastD 0 := by
  intro ws
  induction ws with
  | nil => intro ls bs a hne _ _ _; exact absurd rfl hne
  | cons w ws2 ih =>
    intro ls bs a _ hdims hpos hlen
    cases ls with
    | nil => cases bs <;> simp [dimsOk] at hdims
    | cons s0 t =>
      cases t with
      | nil => cases bs <;> simp [dimsOk] at hdims
      | cons s1 rest =>
        cases bs with
        | nil => simp [dimsOk] at hdims
        | cons bv bs2 =>
          simp only [dimsOk, Bool.and_eq_true, beq_iff_eq, List.all_eq_true] at hdims
          obtain ⟨⟨⟨hw, hrows⟩, hbv⟩, hrec⟩ := hdims
          have hs1 : 0 < s1 := hpos s1 (by simp)
          have hwne : w ≠ [] := by
            intro hc; rw [hc] at hw; simp at hw; omega
          have hhead : (w.headD []).length = a.length := by
            rw [hlen]
            have := hrows (w.headD []) (headD_mem w [] hwne)
            simpa using this
          have hmv := matVec_ok_of w a hwne hhead
          have hmvlen : (matVecP w a).length = s1 := by rw [matVecP_length, hw]
          have hz := addV_ok (matVecP w a) bv (by rw [hmvlen, hbv])
          have hzlen : (List.zipWith (fun x y => x + y) (matVecP w a) bv).length = s1 := by
            simp [List.length_zipWith, hmvlen, hbv]
          cases ws2 with
          | nil =>
            have hrest : rest = [] := by
              cases rest with
              | nil => rfl
              | cons x u => simp [dimsOk] at hrec
            subst hrest
            refine ⟨[List.zipWith (fun x y => x + y) (matVecP w a) bv],
                    [List.zipWith (fun x y => x + y) (matVecP w a) bv],
                    List.zipWith (fun x y => x + y) (matVecP w a) bv,
                    ?_, by simp, by simp, ?_, by simpa using hzlen⟩
            · simp only [fwd, hmv, hz]
            · intro j hj
              have hj0 : j = 0 := by simpa using hj
              subst hj0
              simpa using And.intro hzlen hzlen
          | cons w2 ws3 =>
            have ihres := ih (s1 :: rest) bs2
              (List.map sig (List.zipWith (fun x y => x + y) (matVecP w a) bv))
              (by simp) hrec
              (fun s hs => hpos s (List.mem_cons_of_mem s0 hs))
              (by simpa using hzlen)
            obtain ⟨zs', as', out', hfwd', hzl', hal', hj', hout'⟩ := ihres
            refine ⟨List.zipWith (fun x y => x + y) (matVecP w a) bv :: zs',
                    List.map sig (List.zipWith (fun x y => x + y) (matVecP w a) bv) :: as',
                    out', ?_, by simp [hzl'], by simp [hal'], ?_, ?_⟩
            · simp only [fwd, hmv, hz, hfwd']
            · intro j hj
              cases j with
              | zero => simpa using And.intro hzlen hzlen
              | succ j2 =>
                have := hj' j2 (by simp at hj ⊢; omega)
                simpa using this
            · rw [hout', getLastD_cons_of_ne s0 (s1 :: rest) 0 (by simp)]

/-- The `predict` recursion computes exactly the output component of the
`forward_pass` recursion: identical mathematics, identical failure behaviour,
no state retention. -/
theorem predictAux_eq_fwd (sig : ℚ → ℚ) :
    ∀ (ws : List Mat) (bs : List Vec) (a : Vec),
      predictAux sig ws bs a = (fwd sig ws bs a).map (fun r => r.2.2) := by
  intro ws
  induction ws with
  | nil => intro bs a; rfl
  | cons w ws2 ih =>
    intro bs a
    cases bs with
    | nil => rfl
    | cons bv bs2 =>
      cases hmv : matVec w a with
      | error e => simp [predictAux, fwd, hmv, Except.map]
      | ok mv =>
        cases hz : addV mv bv with
        | error e => simp [predictAux, fwd, hmv, hz, Except.map]
        | ok z =>
          cases ws2 with
          | nil => simp [predictAux, fwd, hmv, hz, Except.map]
          | cons w2 ws3 =>
            simp only [predictAux, fwd, hmv, hz]
            rw [ih bs2]
            cases hf : fwd sig (w2 :: ws3) bs2 (z.map sig) with
            | error e => simp [Except.map, hf]
            | ok res => simp [Except.map, hf]

/-- Success and shape analysis of the backward delta loop: on well-dimensioned
inputs with positive sizes (`u` lists the sizes of the non-input layers), the
loop succeeds and the resulting delta list satisfies exactly the backward
recurrence of the code, with the output delta in last position. -/
theorem mkDeltas_ok (sig : ℚ → ℚ) :
    ∀ (wTail : List Mat) (u : List ℕ) (zInit : List Vec) (d : Vec),
      wTail.length + 1 = u.length →
      zInit.length = wTail.length →
      (∀ j, j < wTail.length →
        (wTail.getD j []).length = u.getD (j + 1) 0 ∧
        (∀ row ∈ wTail.getD j [], row.length = u.getD j 0) ∧
        (zInit.getD j []).length = u.getD j 0) →
      (∀ s ∈ u, 0 < s) →
      d.length = u.getLastD 0 →
      ∃ D, mkDeltas sig wTail zInit d = .ok D ∧
        D.length = wTail.length + 1 ∧
        (∀ j, j < wTail.length + 1 → (D.getD j []).length = u.getD j 0) ∧
        D.getD wTail.length [] = d ∧
        (∀ j, j < wTail.length →
          D.getD j [] = mulVP
            (matVecP (transpose (wTail.getD j [])) (D.getD (j + 1) []))
            ((zInit.getD j []).map (sigmoid_derivative sig))) := by
  intro wTail
  induction wTail with
  | nil =>
    intro u zInit d hlu hlz hdims hpos hd
    cases u with
    | nil => simp at hlu
    | cons s u2 =>
      cases u2 with
      | nil =>
        refine ⟨[d], rfl, rfl, ?_, rfl, ?_⟩
        · intro j hj
          have hj1 : j < 1 := by simpa using hj
          have hj0 : j = 0 := by omega
          subst hj0
          simpa using hd
        · intro j hj
          simp at hj
      | cons s2 u3 => simp at hlu
  | cons w wr ih =>
    intro u zInit d hlu hlz hdims hpos hd
    cases u with
    | nil => simp at hlu
    | cons s0 u2 =>
      cases u2 with
      | nil => simp at hlu
      | cons s1 u3 =>
        cases zInit with
        | nil => simp at hlz
        | cons z zr =>
          obtain ⟨hw0, hrows0, hz0⟩ := hdims 0 (by simp)
          have hw0l : w.length = s1 := by simpa using hw0
          have hz0l : z.length = s0 := by simpa using hz0
          have ihres := ih (s1 :: u3) zr d (by simp at hlu ⊢; omega)
            (by simp at hlz ⊢; omega)
            (fun j hj => by
              obtain ⟨g1, g2, g3⟩ := hdims (j + 1) (by simp; omega)
              exact ⟨by simpa using g1,
                     by intro row hrow; simpa using g2 row (by simpa using hrow),
                     by simpa using g3⟩)
            (fun s hs => hpos s (List.mem_cons_of_mem s0 hs))
            (by rw [hd, getLastD_cons_of_ne s0 (s1 :: u3) 0 (by simp)])
          obtain ⟨D2, hmk2, hlen2, hjlen2, hlast2, hrec2⟩ := ihres
          have hD20 : (D2.getD 0 []).length = s1 := by simpa using hjlen2 0 (by omega)
          have hs0 : 0 < s0 := hpos s0 (by simp)
          have hs1 : 0 < s1 := hpos s1 (by simp)
          have hwne : w ≠ [] := by
            intro hc; rw [hc] at hw0l; simp at hw0l; omega
          have htne : transpose w ≠ [] := by
            cases w with
            | nil => exact absurd rfl hwne
            | cons r0 rs =>
              have hr0 : r0.length = s0 := by simpa using hrows0 r0 (by simp)
              have : (transpose (r0 :: rs)).length = s0 := by rw [transpose_length, hr0]
              intro hc
              rw [hc] at this
              simp at this
              omega
          have hthead : ((transpose w).headD []).length = (D2.getD 0 []).length := by
            rw [hD20, ← hw0l]
            exact transpose_rows w ((transpose w).headD []) (headD_mem _ _ htne)
          have hmv := matVec_ok_of (transpose w) (D2.getD 0 []) htne hthead
          have htlen : (transpose w).length = s0 := by
            cases w with
            | nil => exact absurd rfl hwne
            | cons r0 rs =>
              have hr0 : r0.length = s0 := by simpa using hrows0 r0 (by simp)
              rw [transpose_length, hr0]
          have hpdlen : (matVecP (transpose w) (D2.getD 0 [])).length = s0 := by
            rw [matVecP_length, htlen]
          have hem := elementwise_multiply_ok
            (matVecP (transpose w) (D2.getD 0 []))
            (z.map (sigmoid_derivative sig))
            (by rw [hpdlen]; simp [hz0l])
          have hdllen :
              (mulVP (matVecP (transpose w) (D2.getD 0 [])) (z.map (sigmoid_derivative sig))).length
                = s0 := by
            simp only [mulVP, List.length_zipWith, List.length_map]
            rw [hpdlen, hz0l]
            exact min_self s0
          refine ⟨mulVP (matVecP (transpose w) (D2.getD 0 []))
                    (z.map (sigmoid_derivative sig)) :: D2, ?_, by simp [hlen2], ?_, ?_, ?_⟩
          · simp only [mkDeltas, hmk2]
            rw [headD_eq_getD D2 []]
            simp only [hmv, hem]
          · intro j hj
            cases j with
            | zero => simpa using hdllen
            | succ j2 =>
              have := hjlen2 j2 (by simp at hj ⊢; omega)
              simpa using this
          · simpa using hlast2
          · intro j hj
            cases j with
            | zero => simp
            | succ j2 =>
              have := hrec2 j2 (by simp at hj ⊢; omega)
              simpa using this

/-- Head row of the scaled outer product: one entry per previous-layer
activation component. -/
theorem smulM_outer_headD (d a : Vec) (lr : ℚ) (hd : d ≠ []) :
    ((smulM (outer_product d a) lr).headD []).length = a.length := by
  cases d with
  | nil => exact absurd rfl hd
  | cons d0 dr => simp [smulM, outer_product]

/-- Row count of the scaled outer product. -/
theorem smulM_outer_length (d a : Vec) (lr : ℚ) :
    (smulM (outer_product d a) lr).length = d.length := by
  simp [smulM, outer_product]

/-- Success of the per-layer parameter update under matching dimensions. -/
theorem updateLayer_ok (lr : ℚ) (w : Mat) (b : Vec) (d a : Vec)
    (hwl : w.length = d.length)
    (hrows : ∀ row ∈ w, row.length = a.length)
    (hbl : b.length = d.length) :
    updateLayer lr w b d a
      = .ok (subMP w (smulM (outer_product d a) lr), subVP b (smulV d lr)) := by
  have hsub : subM w (smulM (outer_product d a) lr)
      = .ok (subMP w (smulM (outer_product d a) lr)) := by
    rw [subM, if_neg]
    push_neg
    refine ⟨by rw [smulM_outer_length, hwl], ?_⟩
    intro hne
    have hdne : d ≠ [] := by
      intro hc
      rw [hc] at hwl
      simp at hwl
      exact hne hwl
    rw [smulM_outer_headD d a lr hdne]
    exact hrows (w.headD []) (headD_mem _ _ hne)
  have hsv : subV b (smulV d lr) = .ok (subVP b (smulV d lr)) := by
    apply subV_ok
    simp [smulV, hbl]
  simp only [updateLayer, hsub, hsv]

/-- Success and shape analysis of the whole update loop under matching
dimensions: the new parameter lists satisfy the code's update equations
entrywise. -/
theorem updateAll_ok (lr : ℚ) :
    ∀ (ws : List Mat) (bs ds as2 : List Vec),
      bs.length = ws.length → ds.length = ws.length → ws.length ≤ as2.length →
      (∀ j, j < ws.length →
        (ws.getD j []).length = (ds.getD j []).length ∧
        (∀ row ∈ ws.getD j [], row.length = (as2.getD j []).length) ∧
        (bs.getD j []).length = (ds.getD j []).length) →
      ∃ ws2 bs2, updateAll lr ws bs ds as2 = .ok (ws2, bs2) ∧
        ws2.length = ws.length ∧ bs2.length = ws.length ∧
        (∀ j, j < ws.length →
          ws2.getD j [] = subMP (ws.getD j [])
            (smulM (outer_product (ds.getD j []) (as2.getD j [])) lr) ∧
          bs2.getD j [] = subVP (bs.getD j []) (smulV (ds.getD j []) lr)) := by
  intro ws
  induction ws with
  | nil =>
    intro bs ds as2 _ _ _ _
    exact ⟨[], [], rfl, rfl, rfl, fun j hj => by simp at hj⟩
  | cons w wr ih =>
    intro bs ds as2 hbl hdl hal hdims
    cases bs with
    | nil => simp at hbl
    | cons bv br =>
      cases ds with
      | nil => simp at hdl
      | cons dv dr =>
        cases as2 with
        | nil => simp at hal
        | cons av ar =>
          obtain ⟨g1, g2, g3⟩ := hdims 0 (by simp)
          have hupd := updateLayer_ok lr w bv dv av (by simpa using g1)
            (fun row hrow => by simpa using g2 row (by simpa using hrow))
            (by simpa using g3)
          have ihres := ih br dr ar (by simp at hbl ⊢; omega) (by simp at hdl ⊢; omega)
            (by simp at hal ⊢; omega)
            (fun j hj => by
              obtain ⟨k1, k2, k3⟩ := hdims (j + 1) (by simp; omega)
              exact ⟨by simpa using k1,
                     by intro row hrow; simpa using k2 row (by simpa using hrow),
                     by simpa using k3⟩)
          obtain ⟨ws2, bs2, hrun, hl1, hl2, heq⟩ := ihres
          refine ⟨subMP w (smulM (outer_product dv av) lr) :: ws2,
                  subVP bv (smulV dv lr) :: bs2, ?_, by simp [hl1], by simp [hl2], ?_⟩
          · simp only [updateAll, hupd, hrun]
          · intro j hj
            cases j with
            | zero => simp
            | succ j2 =>
              have := heq j2 (by simp at hj ⊢; omega)
              simpa using this

/-- Entrywise subtraction of equal-shape rectangular matrices preserves the
shape. -/
theorem subMP_shape :
    ∀ (w X : Mat) (c : ℕ), X.length = w.length →
      (∀ r ∈ w, r.length = c) → (∀ r ∈ X, r.length = c) →
      (subMP w X).length = w.length ∧ (∀ r ∈ subMP w X, r.length = c) := by
  intro w
  induction w with
  | nil =>
    intro X c h _ _
    refine ⟨by simp [subMP], ?_⟩
    intro r hr
    simp [subMP] at hr
  | cons rw wr ih =>
    intro X c h hw hX
    cases X with
    | nil => simp at h
    | cons rx Xr =>
      obtain ⟨ihl, ihr⟩ := ih Xr c (by simp at h ⊢; omega)
        (fun r hr => hw r (List.mem_cons_of_mem _ hr))
        (fun r hr => hX r (List.mem_cons_of_mem _ hr))
      refine ⟨?_, ?_⟩
      · simp only [subMP, List.zipWith_cons_cons, List.length_cons]
        exact congrArg (· + 1) ihl
      intro r hr
      simp only [subMP, List.zipWith_cons_cons, List.mem_cons] at hr
      rcases hr with hr | hr
      · subst hr
        have h1 : rw.length = c := hw rw (by simp)
        have h2 : rx.length = c := hX rx (by simp)
        simp [subVP, List.length_zipWith, h1, h2]
      · exact ihr r hr

/-- Every row of the scaled outer product has one entry per right-hand
component. -/
theorem smulM_outer_rows (d a : Vec) (lr : ℚ) :
    ∀ r ∈ smulM (outer_product d a) lr, r.length = a.length := by
  intro r hr
  simp only [smulM, outer_product, List.map_map, List.mem_map] at hr
  obtain ⟨x, _, rfl⟩ := hr
  simp

/-- Length of the guarded vector difference. -/
theorem subVP_length (a b : Vec) : (subVP a b).length = min a.length b.length := by
  simp [subVP, List.length_zipWith]

/-- Master analysis of a successful `backpropagate` call on a well-formed,
positive-size network with matching input and target sizes: the call succeeds;
the stored transients are exactly the forward pass's records; the delta list
satisfies the claimed output-layer base case and hidden-layer recurrence on the
stored pre-activations; every layer's parameters receive the claimed update;
and well-formedness is preserved. -/
theorem backpropagate_ok (sig : ℚ → ℚ) (net : Net) (input target : Vec)
    (hwf : Wf net) (hpos : PosSizes net)
    (hin : input.length = net.layer_sizes.headD 0)
    (htg : target.length = net.layer_sizes.getLastD 0) :
    ∃ (net2 : Net) (zs as2 : List Vec) (out : Vec) (D : List Vec),
      backpropagate sig net input target = .ok net2 ∧
      fwd sig net.weights net.biases input = .ok (zs, as2, out) ∧
      net2.layer_sizes = net.layer_sizes ∧
      net2.learning_rate = net.learning_rate ∧
      net2.layer_inputs = zs ∧
      net2.layer_outputs = input :: as2 ∧
      out.length = net.layer_sizes.getLastD 0 ∧
      net2.weights.length = net.weights.length ∧
      net2.biases.length = net.weights.length ∧
      D.length = net.weights.length ∧
      D.getD (net.weights.length - 1) [] = subVP out target ∧
      (∀ j, j + 1 < net.weights.length →
        D.getD j [] = mulVP
          (matVecP (transpose (net.weights.getD (j + 1) [])) (D.getD (j + 1) []))
          ((zs.getD j []).map (sigmoid_derivative sig))) ∧
      (∀ j, j < net.weights.length →
        net2.weights.getD j [] = subMP (net.weights.getD j [])
          (smulM (outer_product (D.getD j []) ((input :: as2).getD j []))
            net.learning_rate) ∧
        net2.biases.getD j [] = subVP (net.biases.getD j [])
          (smulV (D.getD j []) net.learning_rate)) ∧
      Wf net2 ∧ PosSizes net2 := by
  obtain ⟨hL, hdims⟩ := hwf
  obtain ⟨hwlen, hblen, hjfacts⟩ := dimsOk_facts _ _ _ hdims
  have hm1 : 1 ≤ net.weights.length := by omega
  have hwne : net.weights ≠ [] := by
    intro hc; rw [hc] at hm1; simp at hm1
  obtain ⟨zs, as2, out, hfwd, hzsl, hasl, hjza, houtl⟩ :=
    fwd_ok sig net.weights net.layer_sizes net.biases input hwne hdims hpos hin
  -- layer-size list structure
  obtain ⟨s0, lrest, hls⟩ : ∃ s0 lrest, net.layer_sizes = s0 :: lrest := by
    cases hc : net.layer_sizes with
    | nil => rw [hc] at hL; simp at hL
    | cons a t => exact ⟨a, t, rfl⟩
  have hlrne : lrest ≠ [] := by
    intro hc
    rw [hls, hc] at hL
    simp at hL
  obtain ⟨w0, wrest, hws⟩ : ∃ w0 wrest, net.weights = w0 :: wrest := by
    cases hc : net.weights with
    | nil => exact absurd hc hwne
    | cons a t => exact ⟨a, t, rfl⟩
  -- output delta
  have hdlen : (subVP out target).length = net.layer_sizes.getLastD 0 := by
    rw [subVP_length, houtl, htg, min_self]
  -- deltas
  have hmk := mkDeltas_ok sig wrest lrest zs.dropLast (subVP out target)
    (by
      have : net.weights.length + 1 = net.layer_sizes.length := hwlen
      rw [hws, hls] at this
      simp at this ⊢
      omega)
    (by
      rw [List.length_dropLast, hzsl, hws]
      simp)
    (fun j hj => by
      have hjw : j + 1 < net.weights.length := by
        rw [hws]; simp; omega
      obtain ⟨g1, g2, g3⟩ := hjfacts (j + 1) hjw
      have hwg : wrest.getD j [] = net.weights.getD (j + 1) [] := by
        rw [hws]; simp
      have hlg1 : lrest.getD (j + 1) 0 = net.layer_sizes.getD (j + 2) 0 := by
        rw [hls]; simp
      have hlg0 : lrest.getD j 0 = net.layer_sizes.getD (j + 1) 0 := by
        rw [hls]; simp
      refine ⟨by rw [hwg, hlg1]; exact g1, ?_, ?_⟩
      · intro row hrow
        rw [hwg] at hrow
        rw [hlg0]
        exact g2 row hrow
      · have hdrop : zs.dropLast.getD j [] = zs.getD j [] := by
          apply getD_dropLast
          rw [hzsl]
          exact hjw
        rw [hdrop, hlg0]
        exact (hjza j (by omega)).1)
    (fun s hs => hpos s (by rw [hls]; exact List.mem_cons_of_mem s0 hs))
    (by
      rw [hdlen, hls, getLastD_cons_of_ne s0 lrest 0 hlrne])
  obtain ⟨D, hmkeq, hDlen, hDjlen, hDlast, hDrec⟩ := hmk
  have hDlen2 : D.length = net.weights.length := by
    rw [hDlen, hws]
    simp
  -- updates
  have hupd := updateAll_ok net.learning_rate net.weights net.biases D (input :: as2)
    (by omega)
    (by omega)
    (by simp [hasl])
    (fun j hj => by
      obtain ⟨g1, g2, g3⟩ := hjfacts j hj
      have hDj : (D.getD j []).length = net.layer_sizes.getD (j + 1) 0 := by
        have := hDjlen j (by rw [hws] at hj; simp at hj; omega)
        rw [this, hls]
        simp
      have haj : ((input :: as2).getD j []).length = net.layer_sizes.getD j 0 := by
        cases j with
        | zero =>
          rw [hls] at hin ⊢
          simpa using hin
        | succ j2 =>
          have := (hjza j2 (by omega)).2
          simpa using this
      exact ⟨by rw [g1, hDj], by intro row hrow; rw [g2 row hrow, haj], by rw [g3, hDj]⟩)
  obtain ⟨ws2, bs2, hupeq, hw2l, hb2l, hupj⟩ := hupd
  -- run the function
  have hg1 : ¬ input.length ≠ net.layer_sizes.headD 0 := by
    rw [hin]; exact fun hc => hc rfl
  have hg2 : ¬ target.length ≠ net.layer_sizes.getLastD 0 := by
    rw [htg]; exact fun hc => hc rfl
  have hsv : subV out target = .ok (subVP out target) := by
    apply subV_ok
    rw [houtl, htg]
  have hrun : backpropagateFull sig net input target
      = ({ net with
            layer_outputs := input :: as2
            layer_inputs := zs
            weights := ws2
            biases := bs2 }, false) := by
    rw [backpropagateFull, if_neg hg1]
    rw [show wrest = net.weights.drop 1 by rw [hws]; simp] at hmkeq
    simp only [hfwd, if_neg hg2, hsv, hmkeq, hupeq]
  refine ⟨{ net with
      layer_outputs := input :: as2
      layer_inputs := zs
      weights := ws2
      biases := bs2 }, zs, as2, out, D, ?_, hfwd, ?_, ?_, ?_, ?_, houtl, ?_, ?_, hDlen2, ?_, ?_, ?_, ?_, ?_⟩
  · rw [backpropagate, hrun]
    simp
  · rfl
  · rfl
  · rfl
  · rfl
  · simpa using hw2l
  · simpa using hb2l
  · rw [show net.weights.length - 1 = wrest.length by rw [hws]; simp]
    exact hDlast
  · intro j hj
    have hjw : j < wrest.length := by rw [hws] at hj; simp at hj; omega
    have := hDrec j hjw
    rw [show wrest.getD j [] = net.weights.getD (j + 1) [] by rw [hws]; simp] at this
    rw [show zs.dropLast.getD j [] = zs.getD j [] by
      apply getD_dropLast; rw [hzsl]; rw [hws]; simp; omega] at this
    exact this
  · intro j hj
    have := hupj j hj
    simpa using this
  · constructor
    · simpa using hL
    · apply dimsOk_intro
      · rw [hw2l]; exact hwlen
      · rw [hb2l, hw2l]
      · intro j hj
        have hjw : j < net.weights.length := by rw [hw2l] at hj; exact hj
        obtain ⟨g1, g2, g3⟩ := hjfacts j hjw
        obtain ⟨e1, e2⟩ := hupj j hjw
        have hDj : (D.getD j []).length = net.layer_sizes.getD (j + 1) 0 := by
          have := hDjlen j (by rw [hws] at hjw; simp at hjw; omega)
          rw [this, hls]
          simp
        have haj : ((input :: as2).getD j []).length = net.layer_sizes.getD j 0 := by
          cases j with
          | zero =>
            rw [hls] at hin ⊢
            simpa using hin
          | succ j2 =>
            have := (hjza j2 (by omega)).2
            simpa using this
        have hsh := subMP_shape (net.weights.getD j [])
          (smulM (outer_product (D.getD j []) ((input :: as2).getD j []))
            net.learning_rate)
          (net.layer_sizes.getD j 0)
          (by rw [smulM_outer_length, hDj, g1])
          g2
          (by
            intro r hr
            rw [smulM_outer_rows _ _ _ r hr, haj])
        refine ⟨?_, ?_, ?_⟩
        · show ((ws2 : List Mat).getD j []).length = _
          rw [e1, hsh.1, g1]
        · intro row hrow
          show row.length = _
          rw [e1] at hrow
          exact hsh.2 row hrow
        · show ((bs2 : List Vec).getD j []).length = _
          rw [e2, subVP_length, g3]
          rw [show (smulV (D.getD j []) net.learning_rate).length = (D.getD j []).length by
            simp [smulV]]
          rw [hDj, min_self]
  · intro s hs
    exact hpos s (by simpa using hs)

/-- Success of `predict` on a well-formed, positive-size network with a
matching input: it returns an output of the output layer's size. -/
theorem predict_ok (sig : ℚ → ℚ) (net : Net) (input : Vec)
    (hwf : Wf net) (hpos : PosSizes net)
    (hin : input.length = net.layer_sizes.headD 0) :
    ∃ p, predict sig net input = .ok p ∧ p.length = net.layer_sizes.getLastD 0 := by
  obtain ⟨hL, hdims⟩ := hwf
  obtain ⟨hwlen, _, _⟩ := dimsOk_facts _ _ _ hdims
  have hwne : net.weights ≠ [] := by
    intro hc; rw [hc] at hwlen; simp at hwlen; omega
  obtain ⟨zs, as2, out, hfwd, _, _, _, houtl⟩ :=
    fwd_ok sig net.weights net.layer_sizes net.biases input hwne hdims hpos hin
  refine ⟨out, ?_, houtl⟩
  rw [predict, if_neg (by rw [hin]; exact fun hc => hc rfl), predictAux_eq_fwd, hfwd]
  rfl

/-- Membership of a defaulted index access for an in-range index. -/
theorem getD_mem_of_lt {α : Type} (l : List α) (n : ℕ) (d : α) (h : n < l.length) :
    l.getD n d ∈ l := by
  rw [List.getD_eq_getElem l d h]
  exact List.getElem_mem h

/-- Success of the loss-reporting pass on a well-formed, positive-size network
over matched samples of the right widths. -/
theorem sumMSE_ok (sig : ℚ → ℚ) (net : Net) (hwf : Wf net) (hpos : PosSizes net) :
    ∀ (is2 ts : List Vec), is2.length = ts.length →
      (∀ v ∈ is2, v.length = net.layer_sizes.headD 0) →
      (∀ v ∈ ts, v.length = net.layer_sizes.getLastD 0) →
      ∃ q, sumMSE sig net is2 ts = .ok q := by
  intro is2
  induction is2 with
  | nil =>
    intro ts _ _ _
    exact ⟨0, rfl⟩
  | cons i ir ih =>
    intro ts hlen hins htgs
    cases ts with
    | nil => simp at hlen
    | cons t tr =>
      obtain ⟨p, hp, hpl⟩ := predict_ok sig net i hwf hpos (hins i (by simp))
      have hmse : nnMSE p t = .ok (((subVP p t).map (fun e => e * e)).sum / p.length) := by
        rw [nnMSE, if_neg]
        rw [hpl, htgs t (by simp)]
        exact fun hc => hc rfl
      obtain ⟨q, hq⟩ := ih tr (by simpa using hlen)
        (fun v hv => hins v (List.mem_cons_of_mem _ hv))
        (fun v hv => htgs v (List.mem_cons_of_mem _ hv))
      refine ⟨((subVP p t).map (fun e => e * e)).sum / p.length + q, ?_⟩
      simp only [sumMSE, hp, hmse, hq]

/-- Success and state-shape preservation of one training epoch. -/
theorem trainEpoch_ok (sig : ℚ → ℚ) (inputs targets : List Vec) :
    ∀ (ord : List ℕ) (net : Net),
      Wf net → PosSizes net →
      (∀ i ∈ ord, i < inputs.length) →
      inputs.length = targets.length →
      (∀ v ∈ inputs, v.length = net.layer_sizes.headD 0) →
      (∀ v ∈ targets, v.length = net.layer_sizes.getLastD 0) →
      ∃ net2, trainEpoch sig inputs targets net ord = .ok net2 ∧
        Wf net2 ∧ PosSizes net2 ∧ net2.layer_sizes = net.layer_sizes := by
  intro ord
  induction ord with
  | nil =>
    intro net hwf hpos _ _ _ _
    exact ⟨net, rfl, hwf, hpos, rfl⟩
  | cons idx rest ih =>
    intro net hwf hpos hord hlen hins htgs
    have hi : idx < inputs.length := hord idx (by simp)
    have hit : idx < targets.length := by omega
    have h1 : (inputs.getD idx []).length = net.layer_sizes.headD 0 :=
      hins _ (getD_mem_of_lt inputs idx [] hi)
    have h2 : (targets.getD idx []).length = net.layer_sizes.getLastD 0 :=
      htgs _ (getD_mem_of_lt targets idx [] hit)
    obtain ⟨net2, zs, as2, out, D, hok, _, hlsz, _, _, _, _, _, _, _, _, _, _, hwf2, hpos2⟩ :=
      backpropagate_ok sig net (inputs.getD idx []) (targets.getD idx []) hwf hpos h1 h2
    obtain ⟨net3, hrun, hwf3, hpos3, hlsz3⟩ := ih net2 hwf2 hpos2
      (fun i hi2 => hord i (List.mem_cons_of_mem _ hi2)) hlen
      (fun v hv => by rw [hlsz]; exact hins v hv)
      (fun v hv => by rw [hlsz]; exact htgs v hv)
    refine ⟨net3, ?_, hwf3, hpos3, by rw [hlsz3, hlsz]⟩
    simp only [trainEpoch, hok, hrun]

/-- Success and state-shape preservation of the epoch loop, including the
loss-reporting passes. -/
theorem epochLoop_ok (sig : ℚ → ℚ) (inputs targets : List Vec) (perm : ℕ → List ℕ)
    (repEvery epochs : ℕ)
    (hlen : inputs.length = targets.length)
    (hperm : ∀ e, ∀ i ∈ perm e, i < inputs.length) :
    ∀ (es : List ℕ) (net : Net), Wf net → PosSizes net →
      (∀ v ∈ inputs, v.length = net.layer_sizes.headD 0) →
      (∀ v ∈ targets, v.length = net.layer_sizes.getLastD 0) →
      ∃ net2, epochLoop sig inputs targets perm repEvery epochs net es = .ok net2 ∧
        Wf net2 ∧ PosSizes net2 ∧ net2.layer_sizes = net.layer_sizes := by
  intro es
  induction es with
  | nil =>
    intro net hwf hpos _ _
    exact ⟨net, rfl, hwf, hpos, rfl⟩
  | cons e er ih =>
    intro net hwf hpos hins htgs
    obtain ⟨net2, htr, hwf2, hpos2, hlsz2⟩ :=
      trainEpoch_ok sig inputs targets (perm e) net hwf hpos (hperm e) hlen hins htgs
    have hins2 : ∀ v ∈ inputs, v.length = net2.layer_sizes.headD 0 := by
      intro v hv; rw [hlsz2]; exact hins v hv
    have htgs2 : ∀ v ∈ targets, v.length = net2.layer_sizes.getLastD 0 := by
      intro v hv; rw [hlsz2]; exact htgs v hv
    obtain ⟨net3, hrest, hwf3, hpos3, hlsz3⟩ := ih net2 hwf2 hpos2 hins2 htgs2
    by_cases hrep : (e + 1) % repEvery = 0 ∨ e = epochs - 1
    · obtain ⟨q, hq⟩ := sumMSE_ok sig net2 hwf2 hpos2 inputs targets hlen hins2 htgs2
      refine ⟨net3, ?_, hwf3, hpos3, by rw [hlsz3, hlsz2]⟩
      simp only [epochLoop, htr, if_pos hrep, hq, hrest]
    · refine ⟨net3, ?_, hwf3, hpos3, by rw [hlsz3, hlsz2]⟩
      simp only [epochLoop, htr, if_neg hrep, hrest]

/-- Success and value characterisation of the final prediction pass: one entry
per input, in the original input order, each the first component of `predict`
on that input. -/
theorem finalPreds_ok (sig : ℚ → ℚ) (net : Net) (hwf : Wf net) (hpos : PosSizes net) :
    ∀ (is2 : List Vec),
      (∀ v ∈ is2, v.length = net.layer_sizes.headD 0) →
      ∃ ps, finalPreds sig net is2 = .ok ps ∧ ps.length = is2.length ∧
        (∀ k, k < is2.length → ∃ p, predict sig net (is2.getD k []) = .ok p ∧
          ps.getD k nanQ = p.headD nanQ) := by
  intro is2
  induction is2 with
  | nil =>
    refine fun _ => ⟨[], rfl, rfl, ?_⟩
    intro k hk
    simp at hk
  | cons i ir ih =>
    intro hins
    obtain ⟨p, hp, _⟩ := predict_ok sig net i hwf hpos (hins i (by simp))
    obtain ⟨ps, hps, hlen, hchar⟩ := ih (fun v hv => hins v (List.mem_cons_of_mem _ hv))
    refine ⟨p.headD nanQ :: ps, ?_, by simp [hlen], ?_⟩
    · simp only [finalPreds, hp, hps]
    · intro k hk
      cases k with
      | zero => exact ⟨p, by simpa using hp, by simp⟩
      | succ k2 =>
        obtain ⟨p2, hp2, hval⟩ := hchar k2 (by simpa using hk)
        exact ⟨p2, by simpa using hp2, by simpa using hval⟩

/-- C5: on a well-formed network with positive layer sizes, `predict` computes
exactly the output component of `forward_pass` (the same mathematics: sigmoid
on every transition but the last, identity on the last); `predict` touches no
network state (it is a pure function of the durable state in this model, so
repeated calls agree by construction); and both calls fail exactly when the
input size differs from `layer_sizes[0]`, with `forward_pass` changing only the
transient stores. -/
theorem C5_predict_forward_equivalence (sig : ℚ → ℚ) (net : Net) (input : Vec)
    (hwf : Wf net) (hpos : PosSizes net) :
    predict sig net input = Except.map (fun r => r.2) (forward_pass sig net input) ∧
    ((∃ r, forward_pass sig net input = .ok r) ↔ input.length = net.layer_sizes.headD 0) ∧
    ((∃ p, predict sig net input = .ok p) ↔ input.length = net.layer_sizes.headD 0) ∧
    (∀ net2 out, forward_pass sig net input = .ok (net2, out) →
      predict sig net input = .ok out ∧ net2.weights = net.weights ∧
      net2.biases = net.biases ∧ net2.layer_sizes = net.layer_sizes ∧
      net2.learning_rate = net.learning_rate) := by
  have hmap : predict sig net input
      = Except.map (fun r => r.2) (forward_pass sig net input) := by
    rw [predict, forward_pass]
    by_cases hin : input.length ≠ net.layer_sizes.headD 0
    · rw [if_pos hin, if_pos hin]
      rfl
    · rw [if_neg hin, if_neg hin, predictAux_eq_fwd]
      cases hf : fwd sig net.weights net.biases input with
      | error e => rfl
      | ok res => rfl
  have hiff : (∃ r, forward_pass sig net input = .ok r)
      ↔ input.length = net.layer_sizes.headD 0 := by
    constructor
    · rintro ⟨r, hr⟩
      by_contra hin
      rw [forward_pass, if_pos hin] at hr
      simp at hr
    · intro hin
      obtain ⟨hL, hdims⟩ := hwf
      obtain ⟨hwlen, _, _⟩ := dimsOk_facts _ _ _ hdims
      have hwne : net.weights ≠ [] := by
        intro hc; rw [hc] at hwlen; simp at hwlen; omega
      obtain ⟨zs, as2, out, hfwd, _⟩ :=
        fwd_ok sig net.weights net.layer_sizes net.biases input hwne hdims hpos hin
      refine ⟨({ net with layer_outputs := input :: as2, layer_inputs := zs }, out), ?_⟩
      rw [forward_pass, if_neg (fun hc => hc hin)]
      rw [hfwd]
  refine ⟨hmap, hiff, ?_, ?_⟩
  · constructor
    · rintro ⟨p, hp⟩
      cases hval : forward_pass sig net input with
      | error e =>
        rw [hmap, hval] at hp
        simp [Except.map] at hp
      | ok r => exact hiff.mp ⟨r, hval⟩
    · intro hin
      obtain ⟨r, hr⟩ := hiff.mpr hin
      exact ⟨r.2, by rw [hmap, hr]; rfl⟩
  · intro net2 out hfp
    have hpred : predict sig net input = .ok out := by
      rw [hmap, hfp]
      rfl
    refine ⟨hpred, ?_⟩
    have hin : input.length = net.layer_sizes.headD 0 := hiff.mp ⟨(net2, out), hfp⟩
    rw [forward_pass, if_neg (fun hc => hc hin)] at hfp
    cases hf : fwd sig net.weights net.biases input with
    | error e =>
      rw [hf] at hfp
      simp at hfp
    | ok res =>
      rw [hf] at hfp
      simp only [Except.ok.injEq, Prod.mk.injEq] at hfp
      obtain ⟨h1, _⟩ := hfp
      rw [← h1]
      exact ⟨rfl, rfl, rfl, rfl⟩

/-- Witness for `C5_predict_forward_equivalence` on a concrete 1-1 network. -/
theorem C5_predict_forward_equivalence_witness :
    predict (fun x => x) ⟨[1, 1], [[[2]]], [[3]], 1, [], []⟩ [1]
      = Except.map (fun r => r.2)
          (forward_pass (fun x => x) ⟨[1, 1], [[[2]]], [[3]], 1, [], []⟩ [1]) ∧
    ((∃ r, forward_pass (fun x => x) ⟨[1, 1], [[[2]]], [[3]], 1, [], []⟩ [1] = .ok r)
      ↔ ([1] : Vec).length = ([1, 1] : List ℕ).headD 0) ∧
    ((∃ p, predict (fun x => x) ⟨[1, 1], [[[2]]], [[3]], 1, [], []⟩ [1] = .ok p)
      ↔ ([1] : Vec).length = ([1, 1] : List ℕ).headD 0) ∧
    (∀ net2 out,
      forward_pass (fun x => x) ⟨[1, 1], [[[2]]], [[3]], 1, [], []⟩ [1] = .ok (net2, out) →
      predict (fun x => x) ⟨[1, 1], [[[2]]], [[3]], 1, [], []⟩ [1] = .ok out ∧
      net2.weights = (⟨[1, 1], [[[2]]], [[3]], 1, [], []⟩ : Net).weights ∧
      net2.biases = (⟨[1, 1], [[[2]]], [[3]], 1, [], []⟩ : Net).biases ∧
      net2.layer_sizes = (⟨[1, 1], [[[2]]], [[3]], 1, [], []⟩ : Net).layer_sizes ∧
      net2.learning_rate = (⟨[1, 1], [[[2]]], [[3]], 1, [], []⟩ : Net).learning_rate) :=
  C5_predict_forward_equivalence (fun x => x) ⟨[1, 1], [[[2]]], [[3]], 1, [], []⟩ [1]
    ⟨by decide, by decide⟩
    (by intro s hs; simp at hs; omega)

/-- C6: calling `backpropagate` with a correctly sized input and a target whose
size differs from the last layer size throws `InvalidArgument` and leaves the
durable model state (every weight matrix and every bias vector) unchanged; only
the transient forward-pass stores may have been overwritten. -/
theorem C6_backpropagate_target_mismatch (sig : ℚ → ℚ) (net : Net) (input target : Vec)
    (hin : input.length = net.layer_sizes.headD 0)
    (htg : target.length ≠ net.layer_sizes.getLastD 0) :
    backpropagate sig net input target = .error () ∧
    (backpropagateFull sig net input target).2 = true ∧
    (backpropagateFull sig net input target).1.weights = net.weights ∧
    (backpropagateFull sig net input target).1.biases = net.biases := by
  have hg1 : ¬ input.length ≠ net.layer_sizes.headD 0 := by
    rw [hin]; exact fun hc => hc rfl
  have key : (backpropagateFull sig net input target).2 = true ∧
      (backpropagateFull sig net input target).1.weights = net.weights ∧
      (backpropagateFull sig net input target).1.biases = net.biases := by
    rw [backpropagateFull, if_neg hg1]
    cases hf : fwd sig net.weights net.biases input with
    | error e => simp
    | ok res =>
      have htg2 : ¬ target.length = net.layer_sizes.getLast?.getD 0 := by
        simpa [List.getLastD_eq_getLast?] using htg
      simp [htg2]
  refine ⟨?_, key⟩
  rw [backpropagate, key.1]
  simp

/-- Witness for `C6_backpropagate_target_mismatch` on a concrete 1-1 network
with an empty target. -/
theorem C6_backpropagate_target_mismatch_witness :
    backpropagate (fun x => x) ⟨[1, 1], [[[2]]], [[3]], 1, [], []⟩ [1] [] = .error () ∧
    (backpropagateFull (fun x => x) ⟨[1, 1], [[[2]]], [[3]], 1, [], []⟩ [1] []).2 = true ∧
    (backpropagateFull (fun x => x) ⟨[1, 1], [[[2]]], [[3]], 1, [], []⟩ [1] []).1.weights
      = (⟨[1, 1], [[[2]]], [[3]], 1, [], []⟩ : Net).weights ∧
    (backpropagateFull (fun x => x) ⟨[1, 1], [[[2]]], [[3]], 1, [], []⟩ [1] []).1.biases
      = (⟨[1, 1], [[[2]]], [[3]], 1, [], []⟩ : Net).biases :=
  C6_backpropagate_target_mismatch (fun x => x) ⟨[1, 1], [[[2]]], [[3]], 1, [], []⟩ [1] []
    rfl (by decide)

/-- C10: `NeuralNetwork` construction fails exactly when `layer_sizes` has
fewer than 2 entries; the entry values are never validated, so construction
with a zero layer size such as [1, 0, 1] completes without error. -/
theorem C10_construction_validation (ls : List ℕ) (lr : ℚ)
    (wdraw : ℕ → ℕ → ℕ → ℚ) (bdraw : ℕ → ℕ → ℚ) :
    ((∃ net, mkNetwork ls lr wdraw bdraw = .ok net) ↔ 2 ≤ ls.length) ∧
    (∃ net, mkNetwork [1, 0, 1] lr wdraw bdraw = .ok net ∧ net.layer_sizes = [1, 0, 1]) := by
  constructor
  · constructor
    · rintro ⟨net, hnet⟩
      by_cases h : ls.length < 2
      · rw [mkNetwork, if_pos h] at hnet
        exact absurd hnet (by simp)
      · omega
    · intro h
      refine ⟨{ layer_sizes := ls
                weights := (initialize_weights_biases ls wdraw bdraw).1
                biases := (initialize_weights_biases ls wdraw bdraw).2
                learning_rate := lr
                layer_outputs := []
                layer_inputs := [] }, ?_⟩
      rw [mkNetwork, if_neg (by omega)]
  · refine ⟨{ layer_sizes := [1, 0, 1]
              weights := (initialize_weights_biases [1, 0, 1] wdraw bdraw).1
              biases := (initialize_weights_biases [1, 0, 1] wdraw bdraw).2
              learning_rate := lr
              layer_outputs := []
              layer_inputs := [] }, ?_, rfl⟩
    rw [mkNetwork, if_neg (by simp)]

/-- C2: on a well-formed network with positive layer sizes and matching input
and target sizes, one `backpropagate` call succeeds and performs exactly the
claimed computation: the output-layer delta is `predicted - target` (with
`predicted` the network's forward output), each hidden delta is
`(W_{l+1}^T * delta_{l+1})` elementwise-multiplied with `sigmoid_derivative`
of the layer's own stored pre-activation, and every layer is updated by
`W -= lr * (delta (x) prev_activation)` and `b -= lr * delta`, all evaluated
at the pre-update weights. -/
theorem C2_backpropagate_formulas (sig : ℚ → ℚ) (net : Net) (input target : Vec)
    (hwf : Wf net) (hpos : PosSizes net)
    (hin : input.length = net.layer_sizes.headD 0)
    (htg : target.length = net.layer_sizes.getLastD 0) :
    ∃ (net2 : Net) (D : List Vec) (predicted : Vec),
      backpropagate sig net input target = .ok net2 ∧
      predict sig net input = .ok predicted ∧
      D.length = net.weights.length ∧
      D.getD (net.weights.length - 1) [] = subVP predicted target ∧
      (∀ j, j + 1 < net.weights.length →
        D.getD j [] = mulVP
          (matVecP (transpose (net.weights.getD (j + 1) [])) (D.getD (j + 1) []))
          ((net2.layer_inputs.getD j []).map (sigmoid_derivative sig))) ∧
      (∀ j, j < net.weights.length →
        net2.weights.getD j [] = subMP (net.weights.getD j [])
          (smulM (outer_product (D.getD j []) (net2.layer_outputs.getD j []))
            net.learning_rate) ∧
        net2.biases.getD j [] = subVP (net.biases.getD j [])
          (smulV (D.getD j []) net.learning_rate)) := by
  obtain ⟨net2, zs, as2, out, D, hok, hfwd, hlsz, hlr, hli, hlo, houtl, hwl, hbl,
    hDl, hDlast, hDrec, hupd, hwf2, hpos2⟩ :=
    backpropagate_ok sig net input target hwf hpos hin htg
  refine ⟨net2, D, out, hok, ?_, hDl, hDlast, ?_, ?_⟩
  · rw [predict, if_neg (fun hc => hc hin), predictAux_eq_fwd, hfwd]
    rfl
  · intro j hj
    rw [hli]
    exact hDrec j hj
  · intro j hj
    rw [hlo]
    exact hupd j hj

/-- Witness for `C2_backpropagate_formulas` on a concrete 1-1 network. -/
theorem C2_backpropagate_formulas_witness :
    ∃ (net2 : Net) (D : List Vec) (predicted : Vec),
      backpropagate (fun x => x) ⟨[1, 1], [[[2]]], [[3]], 1, [], []⟩ [1] [0] = .ok net2 ∧
      predict (fun x => x) ⟨[1, 1], [[[2]]], [[3]], 1, [], []⟩ [1] = .ok predicted ∧
      D.length = (⟨[1, 1], [[[2]]], [[3]], 1, [], []⟩ : Net).weights.length ∧
      D.getD ((⟨[1, 1], [[[2]]], [[3]], 1, [], []⟩ : Net).weights.length - 1) []
        = subVP predicted [0] ∧
      (∀ j, j + 1 < (⟨[1, 1], [[[2]]], [[3]], 1, [], []⟩ : Net).weights.length →
        D.getD j [] = mulVP
          (matVecP
            (transpose ((⟨[1, 1], [[[2]]], [[3]], 1, [], []⟩ : Net).weights.getD (j + 1) []))
            (D.getD (j + 1) []))
          ((net2.layer_inputs.getD j []).map (sigmoid_derivative (fun x => x)))) ∧
      (∀ j, j < (⟨[1, 1], [[[2]]], [[3]], 1, [], []⟩ : Net).weights.length →
        net2.weights.getD j []
          = subMP ((⟨[1, 1], [[[2]]], [[3]], 1, [], []⟩ : Net).weights.getD j [])
            (smulM (outer_product (D.getD j []) (net2.layer_outputs.getD j []))
              (⟨[1, 1], [[[2]]], [[3]], 1, [], []⟩ : Net).learning_rate) ∧
        net2.biases.getD j []
          = subVP ((⟨[1, 1], [[[2]]], [[3]], 1, [], []⟩ : Net).biases.getD j [])
            (smulV (D.getD j []) (⟨[1, 1], [[[2]]], [[3]], 1, [], []⟩ : Net).learning_rate)) :=
  C2_backpropagate_formulas (fun x => x) ⟨[1, 1], [[[2]]], [[3]], 1, [], []⟩ [1] [0]
    ⟨by decide, by decide⟩
    (by intro s hs; simp at hs; omega)
    rfl
    rfl

/-- Index access into the initialised weight list. -/
theorem getD_range_map {α : Type} (n : ℕ) (f : ℕ → α) (j : ℕ) (d : α) (h : j < n) :
    ((List.range n).map f).getD j d = f j := by
  have hlen : j < ((List.range n).map f).length := by simpa using h
  rw [List.getD_eq_getElem _ _ hlen]
  simp

/-- C9: the shape invariants.  Construction produces a network whose weight
matrices are `layer_sizes[i+1] x layer_sizes[i]` and whose bias vectors have
length `layer_sizes[i+1]`; a successful `backpropagate` call (on a positive-size
network, the only kind the spec's data model admits) preserves those
dimensions and the layer-size list; and `forward_pass` (hence `predict`, which
in this model reads but never returns state) never changes any weight or
bias. -/
theorem C9_shape_invariants :
    (∀ (ls : List ℕ) (lr : ℚ) (wdraw : ℕ → ℕ → ℕ → ℚ) (bdraw : ℕ → ℕ → ℚ) (net : Net),
      mkNetwork ls lr wdraw bdraw = .ok net → Wf net ∧ net.layer_sizes = ls) ∧
    (∀ (sig : ℚ → ℚ) (net : Net) (input target : Vec) (net2 : Net),
      Wf net → PosSizes net → backpropagate sig net input target = .ok net2 →
      Wf net2 ∧ net2.layer_sizes = net.layer_sizes) ∧
    (∀ (sig : ℚ → ℚ) (net : Net) (input : Vec) (net2 : Net) (out : Vec),
      forward_pass sig net input = .ok (net2, out) →
      net2.weights = net.weights ∧ net2.biases = net.biases) := by
  refine ⟨?_, ?_, ?_⟩
  · intro ls lr wdraw bdraw net hnet
    by_cases h : ls.length < 2
    · rw [mkNetwork, if_pos h] at hnet
      exact absurd hnet (by simp)
    · rw [mkNetwork, if_neg h] at hnet
      simp only [Except.ok.injEq] at hnet
      subst hnet
      refine ⟨⟨by simpa using by omega, ?_⟩, rfl⟩
      apply dimsOk_intro
      · simp [initialize_weights_biases]
        omega
      · simp [initialize_weights_biases]
      · intro j hj
        have hjl : j < ls.length - 1 := by
          simpa [initialize_weights_biases] using hj
        refine ⟨?_, ?_, ?_⟩
        · show (((List.range (ls.length - 1)).map _).getD j []).length = _
          rw [getD_range_map (ls.length - 1) _ j [] hjl]
          simp
        · intro row hrow
          revert hrow
          show row ∈ ((List.range (ls.length - 1)).map _).getD j [] → _
          rw [getD_range_map (ls.length - 1) _ j [] hjl]
          intro hrow
          simp only [List.mem_map, List.mem_range] at hrow
          obtain ⟨r, _, rfl⟩ := hrow
          simp
        · show (((List.range (ls.length - 1)).map _).getD j []).length = _
          rw [getD_range_map (ls.length - 1) _ j [] hjl]
          simp
  · intro sig net input target net2 hwf hpos hok
    by_cases hin : input.length = net.layer_sizes.headD 0
    · by_cases htg : target.length = net.layer_sizes.getLastD 0
      · obtain ⟨net3, zs, as2, out, D, hok3, _, hlsz, _, _, _, _, _, _, _, _, _, _,
          hwf3, _⟩ := backpropagate_ok sig net input target hwf hpos hin htg
        rw [hok] at hok3
        have hnet : net2 = net3 := by
          simpa using hok3
        rw [hnet]
        exact ⟨hwf3, hlsz⟩
      · exfalso
        have key2 : (backpropagateFull sig net input target).2 = true := by
          rw [backpropagateFull, if_neg (fun hc => hc hin)]
          cases hf2 : fwd sig net.weights net.biases input with
          | error e => simp
          | ok res2 =>
            have htg3 : ¬ target.length = net.layer_sizes.getLast?.getD 0 := by
              simpa [List.getLastD_eq_getLast?] using htg
            simp [htg3]
        rw [backpropagate, key2] at hok
        simp at hok
    · exfalso
      have key2 : (backpropagateFull sig net input target).2 = true := by
        rw [backpropagateFull, if_pos hin]
      rw [backpropagate, key2] at hok
      simp at hok
  · intro sig net input net2 out hfp
    by_cases hin : input.length ≠ net.layer_sizes.headD 0
    · rw [forward_pass, if_pos hin] at hfp
      simp at hfp
    · rw [forward_pass, if_neg hin] at hfp
      cases hf : fwd sig net.weights net.biases input with
      | error e =>
        rw [hf] at hfp
        simp at hfp
      | ok res =>
        rw [hf] at hfp
        simp only [Except.ok.injEq, Prod.mk.injEq] at hfp
        obtain ⟨h1, _⟩ := hfp
        rw [← h1]
        exact ⟨rfl, rfl⟩

/-- Witness for `C9_shape_invariants` on concrete runs of construction,
backpropagation and the forward pass. -/
theorem C9_shape_invariants_witness :
    (Wf ⟨[2, 1], [[[0, 0]]], [[0]], 1, [], []⟩ ∧
      (⟨[2, 1], [[[0, 0]]], [[0]], 1, [], []⟩ : Net).layer_sizes = [2, 1]) ∧
    (∀ (net2 : Net),
      backpropagate (fun x => x) ⟨[1, 1], [[[2]]], [[3]], 1, [], []⟩ [1] [0] = .ok net2 →
      Wf net2 ∧ net2.layer_sizes = (⟨[1, 1], [[[2]]], [[3]], 1, [], []⟩ : Net).layer_sizes) ∧
    (∀ (net2 : Net) (out : Vec),
      forward_pass (fun x => x) ⟨[1, 1], [[[2]]], [[3]], 1, [], []⟩ [1] = .ok (net2, out) →
      net2.weights = (⟨[1, 1], [[[2]]], [[3]], 1, [], []⟩ : Net).weights ∧
      net2.biases = (⟨[1, 1], [[[2]]], [[3]], 1, [], []⟩ : Net).biases) := by
  refine ⟨?_, ?_, ?_⟩
  · exact C9_shape_invariants.1 [2, 1] 1 (fun _ _ _ => 0) (fun _ _ => 0)
      ⟨[2, 1], [[[0, 0]]], [[0]], 1, [], []⟩ rfl
  · intro net2 h
    exact C9_shape_invariants.2.1 (fun x => x) ⟨[1, 1], [[[2]]], [[3]], 1, [], []⟩ [1] [0] net2
      ⟨by decide, by decide⟩ (by intro s hs; simp at hs; omega) h
  · intro net2 out h
    exact C9_shape_invariants.2.2 (fun x => x) ⟨[1, 1], [[[2]]], [[3]], 1, [], []⟩ [1] net2 out h

/-- C4 counterexample: a call whose outer validation passes (non-empty inputs,
matching counts) still throws, because the per-sample `backpropagate` inside
the epoch loop rejects a sample whose width differs from `layer_sizes[0]`:
on a 1-1 network, inputs = [[1,1]] (one sample of width 2), targets = [[1]],
1 epoch.  So `train_for_epochs` does NOT throw only on empty/mismatched
datasets. -/
theorem C4_train_for_epochs_counterexample :
    ([([1, 1] : Vec)] ≠ ([] : List Vec)) ∧
    ([([1, 1] : Vec)].length = [([1] : Vec)].length) ∧
    train_for_epochs (fun x => x) ⟨[1, 1], [[[1]]], [[1]], 1, [], []⟩
      [[1, 1]] [[1]] 1 10 (fun _ => [0]) = .error () := by
  refine ⟨by simp, rfl, ?_⟩
  rfl

/-- C4 (amended): `train_for_epochs` throws when the inputs are empty or the
counts mismatch; and when additionally the network is well-formed with positive
layer sizes, every sample has the input width, every target has the output
width, and each epoch's shuffle is a permutation of the sample indices, the
call succeeds and returns exactly one scalar prediction per input sample, in
the original (unshuffled) input order, each the first component of `predict`
on the post-training network. -/
theorem C4_train_for_epochs_amended (sig : ℚ → ℚ) (net : Net)
    (inputs targets : List Vec) (epochs : ℤ) (repEvery : ℕ) (perm : ℕ → List ℕ)
    (hwf : Wf net) (hpos : PosSizes net)
    (hlen : inputs.length = targets.length)
    (hne : inputs ≠ [])
    (_hep : 0 < epochs)
    (hperm : ∀ e, (perm e).Perm (List.range inputs.length))
    (hins : ∀ v ∈ inputs, v.length = net.layer_sizes.headD 0)
    (htgs : ∀ v ∈ targets, v.length = net.layer_sizes.getLastD 0) :
    (∀ (inputs2 targets2 : List Vec),
      inputs2 = [] ∨ inputs2.length ≠ targets2.length →
      train_for_epochs sig net inputs2 targets2 epochs repEvery perm = .error ()) ∧
    ∃ netF preds,
      train_for_epochs sig net inputs targets epochs repEvery perm = .ok (netF, preds) ∧
      preds.length = inputs.length ∧
      Wf netF ∧ netF.layer_sizes = net.layer_sizes ∧
      (∀ k, k < inputs.length → ∃ p, predict sig netF (inputs.getD k []) = .ok p ∧
        preds.getD k nanQ = p.headD nanQ) := by
  constructor
  · intro inputs2 targets2 h
    rw [train_for_epochs, if_pos]
    rcases h with h | h
    · subst h
      simp
    · exact Or.inr h
  · have hperm2 : ∀ e, ∀ i ∈ perm e, i < inputs.length := by
      intro e i hi
      have := (hperm e).mem_iff.mp hi
      simpa using this
    obtain ⟨netF, hloop, hwfF, hposF, hlszF⟩ :=
      epochLoop_ok sig inputs targets perm repEvery epochs.toNat hlen hperm2
        (List.range epochs.toNat) net hwf hpos hins htgs
    obtain ⟨preds, hpreds, hplen, hchar⟩ := finalPreds_ok sig netF hwfF hposF inputs
      (fun v hv => by rw [hlszF]; exact hins v hv)
    refine ⟨netF, preds, ?_, hplen, hwfF, hlszF, hchar⟩
    rw [train_for_epochs, if_neg]
    · simp only [hloop, hpreds]
    · push_neg
      exact ⟨fun hc => hne (List.eq_nil_of_length_eq_zero hc), hlen⟩

/-- Witness for `C4_train_for_epochs_amended` on a concrete 1-1 network, one
sample, one epoch. -/
theorem C4_train_for_epochs_amended_witness :
    (∀ (inputs2 targets2 : List Vec),
      inputs2 = [] ∨ inputs2.length ≠ targets2.length →
      train_for_epochs (fun x => x) ⟨[1, 1], [[[2]]], [[3]], 1, [], []⟩
        inputs2 targets2 1 10 (fun _ => [0]) = .error ()) ∧
    ∃ netF preds,
      train_for_epochs (fun x => x) ⟨[1, 1], [[[2]]], [[3]], 1, [], []⟩
        [[1]] [[0]] 1 10 (fun _ => [0]) = .ok (netF, preds) ∧
      preds.length = ([([1] : Vec)] : List Vec).length ∧
      Wf netF ∧ netF.layer_sizes = (⟨[1, 1], [[[2]]], [[3]], 1, [], []⟩ : Net).layer_sizes ∧
      (∀ k, k < ([([1] : Vec)] : List Vec).length →
        ∃ p, predict (fun x => x) netF (([([1] : Vec)] : List Vec).getD k []) = .ok p ∧
          preds.getD k nanQ = p.headD nanQ) :=
  C4_train_for_epochs_amended (fun x => x) ⟨[1, 1], [[[2]]], [[3]], 1, [], []⟩
    [[1]] [[0]] 1 10 (fun _ => [0])
    ⟨by decide, by decide⟩
    (by intro s hs; simp at hs; omega)
    rfl
    (List.cons_ne_nil _ _)
    (by decide)
    (fun e => by
      have hr : List.range ([([1] : Vec)] : List Vec).length = [0] := rfl
      rw [hr])
    (by intro v hv; simp at hv; subst hv; rfl)
    (by intro v hv; simp at hv; subst hv; rfl)

end NN

/-- Witness for `C10_construction_validation` at a concrete zero-size layer
list and concrete draws. -/
theorem C10_construction_validation_witness :
    ((∃ net, NN.mkNetwork [1, 0, 1] 1 (fun _ _ _ => 0) (fun _ _ => 0) = .ok net)
      ↔ 2 ≤ ([1, 0, 1] : List ℕ).length) ∧
    (∃ net, NN.mkNetwork [1, 0, 1] 1 (fun _ _ _ => 0) (fun _ _ => 0) = .ok net ∧
      net.layer_sizes = [1, 0, 1]) :=
  NN.C10_construction_validation [1, 0, 1] 1 (fun _ _ _ => 0) (fun _ _ => 0)
